import Mathlib

/-! # mmr: an Elo rating service backed by a redis hash

A shallow embedding of `main.go`.

* Go maps (`map[string]float64`, `map[string]int`, the map built by
  `Resp.Map()`) and redis hashes are finite maps with distinct keys
  (`AList`).  Go ranges over a map in an unspecified order; the loops
  below range over the entries in list order, and the theorems speak
  about lookups only.
* The redis server reached through the pool is an explicit state
  (`Redis`): its keyspace, the log of commands it was sent, and what the
  environment decides about failures (`reachable`, `fails`).  A command
  that fails leaves the keyspace as it was.  A connection is the server
  state it gives access to; returning it to the pool (`p.Put`) changes
  nothing that is modelled.
* The handlers are written over a type `F` of numbers with `+`, `-`, `*`,
  `/` and numerals.  The program runs them on `float64`, the type `F64`
  below: IEEE 754 binary64 with rounding to nearest, ties to even,
  signed zeros, infinities and NaN, each operation rounded on its own
  (no fused multiply-add, as on amd64).  A theorem that does not depend
  on the arithmetic is stated for every `F`; a theorem on the values the
  program computes is stated on `F64`; the real numbers are used where
  the statement is about exact arithmetic.
* The functions `math.Pow`, `strconv.ParseFloat`, the client's encoding
  of a `float64` argument and the conversion `int(f)` are parameters
  (`FloatLib`).  On `F64` the conversion is `goInt`, which follows the
  amd64 compiler where the language leaves the result open: a value
  that is no 64-bit integer after truncation gives the least 64-bit
  integer.
-/

namespace Mmr

/-! ## Constants and request types -/

/-- The untyped constant `K = 32`. -/
def K : ℕ := 32

/-- The untyped constant `initialElo = 1600.0`. -/
def initialElo : ℕ := 1600

/-- The decoded request body of `/match`. -/
structure Match where
  Winner : String
  Loser : String
deriving DecidableEq, Repr

/-- Library functions on `float64` used by the program. -/
structure FloatLib (F : Type) where
  /-- The function `math.Pow`. -/
  pow : F → F → F
  /-- The function `strconv.ParseFloat(s, 64)`; `none` when it returns an error. -/
  parseFloat : String → Option F
  /-- The text the redis client sends for a `float64` argument. -/
  formatFloat : F → String
  /-- The conversion `int(f)`. -/
  toInt : F → Int

/-! ## The redis store -/

/-- One redis hash: field/value pairs with distinct fields. -/
abbrev Hash := AList (fun _ : String => String)

/-- The redis server as seen through the pool. -/
structure Redis where
  /-- The hash stored under each key; the empty hash stands for a missing key. -/
  db : String → Hash
  /-- Whether `p.Get()` obtains a connection. -/
  reachable : Bool
  /-- The commands the environment makes fail (connection loss, error reply). -/
  fails : List String → Bool
  /-- Every command sent so far, oldest first. -/
  log : List (List String)

/-- A reply to a command. -/
inductive Resp where
  | err
  | int (n : Int)
  | array (elems : List String)
deriving DecidableEq, Repr

/-- The field `Err` of a reply, as the test `Err != nil`. -/
def Resp.Err : Resp → Bool
  | Resp.err => true
  | _ => false

/-- Writing alternating fields and values into a map, a later pair overwriting an
earlier one; an odd number of elements is an error. -/
def mapOfPairs : Hash → List String → Option Hash
  | acc, [] => some acc
  | _, [_] => none
  | acc, f :: v :: rest => mapOfPairs (acc.insert f v) rest

/-- The method `Resp.Map()`; `none` when it returns an error. -/
def Resp.Map : Resp → Option Hash
  | Resp.array elems => mapOfPairs ∅ elems
  | _ => none

/-- The reply of HGETALL: fields and values alternating. -/
def flatten : List (Sigma (fun _ : String => String)) → List String
  | [] => []
  | e :: rest => e.1 :: e.2 :: flatten rest

/-- The method `conn.Cmd(cmd, args...)` against the store: HGETALL key,
HSET key field value [field value ...], HDEL key field [field ...];
anything else, and a wrong number of arguments, gets an error reply. -/
def Cmd (c : Redis) (cmd : String) (args : List String) : Redis × Resp :=
  let c1 : Redis := { c with log := c.log ++ [cmd :: args] }
  if c.fails (cmd :: args) then (c1, Resp.err)
  else if cmd = "HGETALL" then
    match args with
    | [key] => (c1, Resp.array (flatten (c.db key).entries))
    | _ => (c1, Resp.err)
  else if cmd = "HSET" then
    match args with
    | key :: f :: v :: rest =>
      match mapOfPairs (c.db key) (f :: v :: rest) with
      | some h =>
        ({ c1 with db := Function.update c.db key h },
          Resp.int ((h.keys.length : Int) - (c.db key).keys.length))
      | none => (c1, Resp.err)
    | _ => (c1, Resp.err)
  else if cmd = "HDEL" then
    match args with
    | key :: f :: fs =>
      let h := (f :: fs).foldl (fun h x => h.erase x) (c.db key)
      ({ c1 with db := Function.update c.db key h },
        Resp.int (((c.db key).keys.length : Int) - h.keys.length))
    | _ => (c1, Resp.err)
  else (c1, Resp.err)

/-- The call `p.Get()`; `none` when it returns an error. -/
def poolGet (p : Redis) : Option Redis :=
  if p.reachable then some p else none

/-! ## The handlers -/

/-- What a handler wrote to the `http.ResponseWriter`. -/
structure Response where
  /-- The status code; 200 when `WriteHeader` was not called. -/
  status : Nat
  /-- The text written with `Fprintf`. -/
  text : String
  /-- The map written with the JSON encoder. -/
  result : Option (AList (fun _ : String => Int))

/-- The loop of `allElos` over the entries of the map `elos`. -/
def allElosLoop {F : Type} (L : FloatLib F) :
    List (Sigma (fun _ : String => String)) → Redis × AList (fun _ : String => F) →
      Redis × AList (fun _ : String => F)
  | [], st => st
  | e :: rest, st =>
    match L.parseFloat e.2 with
    | none => allElosLoop L rest ((Cmd st.1 "HDEL" ["elo", e.1]).1, st.2)
    | some f => allElosLoop L rest (st.1, st.2.insert e.1 f)

/-- The function `allElos`; `none` is the `nil` map. -/
def allElos {F : Type} (L : FloatLib F) (conn : Redis) :
    Redis × Option (AList (fun _ : String => F)) :=
  let r := Cmd conn "HGETALL" ["elo"]
  if r.2.Err then (r.1, none)
  else
    match r.2.Map with
    | none => (r.1, none)
    | some elos =>
      let st := allElosLoop L elos.entries (r.1, ∅)
      (st.1, some st.2)

/-- The ratings table held in a hash, read the way `allElos` reads it: the
rating of every name whose stored string parses. -/
def ratings {F : Type} (L : FloatLib F) (h : Hash) (name : String) : Option F :=
  (h.lookup name).bind L.parseFloat

/-- Lines 75 to 78 of `MatchHandler`: the expected scores `eW` and `eL`, each operation
being the one of `F` (the rounded one of `F64` for the program). -/
def expectedScores {F : Type} [Add F] [Div F] [NatCast F]
    (pow : F → F → F) (winnerElo loserElo : F) : F × F :=
  let rW := pow 10 (winnerElo / 400)
  let rL := pow 10 (loserElo / 400)
  (rW / (rW + rL), rL / (rW + rL))

/-- Lines 75 to 80 of `MatchHandler`: the new ratings of the winner and of the loser,
each operation being the one of `F` (the rounded one of `F64` for the program). -/
def eloUpdate {F : Type} [Add F] [Sub F] [Mul F] [Div F] [One F] [NatCast F]
    (pow : F → F → F) (winnerElo loserElo : F) : F × F :=
  let e := expectedScores pow winnerElo loserElo
  (winnerElo + (K : F) * (1 - e.1), loserElo - (K : F) * e.2)

/-- The handler `PlayerHandler` for `POST /new/{player}`. -/
def PlayerHandler {F : Type} [NatCast F] (L : FloatLib F) (p : Redis) (player : String) :
    Redis × Response :=
  match poolGet p with
  | none => (p, ⟨500, "Could not connect to redis", none⟩)
  | some conn =>
    ((Cmd conn "HSET" [player, L.formatFloat (initialElo : F)]).1, ⟨200, "", none⟩)

/-- The handler `MatchHandler` for `POST /match`; `body` is the outcome of decoding
the request body. -/
def MatchHandler {F : Type} [Add F] [Sub F] [Mul F] [Div F] [One F] [NatCast F]
    (L : FloatLib F) (p : Redis) (body : Option Match) : Redis × Response :=
  match body with
  | none => (p, ⟨400, "Could not decode json body", none⟩)
  | some m =>
    match poolGet p with
    | none => (p, ⟨500, "Could not connect to redis", none⟩)
    | some conn =>
      let r := allElos L conn
      match r.2 with
      | none => (r.1, ⟨500, "Could not retrieve elos from redis", none⟩)
      | some elos =>
        let winnerElo := (elos.lookup m.Winner).getD (initialElo : F)
        let loserElo := (elos.lookup m.Loser).getD (initialElo : F)
        let new := eloUpdate L.pow winnerElo loserElo
        let winnerResp := Cmd r.1 "HSET" ["elo", m.Winner, L.formatFloat new.1]
        let loserResp := Cmd winnerResp.1 "HSET" ["elo", m.Loser, L.formatFloat new.2]
        if winnerResp.2.Err || loserResp.2.Err then
          (loserResp.1, ⟨500, "Could not update ELO stats", none⟩)
        else (loserResp.1, ⟨200, "", none⟩)

/-- The loop of `EloHandler` over all ratings. -/
def eloHandlerLoop {F : Type} (L : FloatLib F) :
    List (Sigma (fun _ : String => F)) → AList (fun _ : String => Int) →
      AList (fun _ : String => Int)
  | [], result => result
  | e :: rest, result => eloHandlerLoop L rest (result.insert e.1 (L.toInt e.2))

/-- The handler `EloHandler` for `GET /elo` (`player = none`) and
`GET /elo/{player}`. -/
def EloHandler {F : Type} (L : FloatLib F) (p : Redis) (player : Option String) :
    Redis × Response :=
  match poolGet p with
  | none => (p, ⟨500, "Could not connect to redis", none⟩)
  | some conn =>
    let r := allElos L conn
    match r.2 with
    | none => (r.1, ⟨500, "Could not retrieve elos from redis", none⟩)
    | some elos =>
      match player with
      | some player =>
        match elos.lookup player with
        | some elo => (r.1, ⟨200, "", some ((∅ : AList _).insert player (L.toInt elo))⟩)
        | none => (r.1, ⟨200, "", some ((∅ : AList _).insert player (initialElo : Int))⟩)
      | none => (r.1, ⟨200, "", some (eloHandlerLoop L elos.entries ∅)⟩)

/-! ## A request to `/match` as three steps -/

/-- Where a request to `/match` stands between the commands it sends: decoded,
ratings read and new ratings computed (lines 52 to 80), winner written (line 82),
finished (lines 83 to 88). -/
inductive MatchStage (F : Type) where
  | decoded (m : Match)
  | computed (m : Match) (newElos : F × F)
  | winnerWritten (m : Match) (newElos : F × F) (winnerResp : Resp)
  | finished (resp : Response)

/-- The next step of a request to `/match` on the shared server. -/
def matchStep {F : Type} [Add F] [Sub F] [Mul F] [Div F] [One F] [NatCast F]
    (L : FloatLib F) (p : Redis) : MatchStage F → Redis × MatchStage F
  | MatchStage.decoded m =>
    match poolGet p with
    | none => (p, MatchStage.finished ⟨500, "Could not connect to redis", none⟩)
    | some conn =>
      let r := allElos L conn
      match r.2 with
      | none => (r.1, MatchStage.finished ⟨500, "Could not retrieve elos from redis", none⟩)
      | some elos =>
        let winnerElo := (elos.lookup m.Winner).getD (initialElo : F)
        let loserElo := (elos.lookup m.Loser).getD (initialElo : F)
        (r.1, MatchStage.computed m (eloUpdate L.pow winnerElo loserElo))
  | MatchStage.computed m newElos =>
    let winnerResp := Cmd p "HSET" ["elo", m.Winner, L.formatFloat newElos.1]
    (winnerResp.1, MatchStage.winnerWritten m newElos winnerResp.2)
  | MatchStage.winnerWritten m newElos winnerResp =>
    let loserResp := Cmd p "HSET" ["elo", m.Loser, L.formatFloat newElos.2]
    if winnerResp.Err || loserResp.2.Err then
      (loserResp.1, MatchStage.finished ⟨500, "Could not update ELO stats", none⟩)
    else (loserResp.1, MatchStage.finished ⟨200, "", none⟩)
  | MatchStage.finished resp => (p, MatchStage.finished resp)

/-- Two requests to `/match` in flight on one server: each element of the schedule
names the request that takes its next step (`false` the first, `true` the second). -/
def runTwo {F : Type} [Add F] [Sub F] [Mul F] [Div F] [One F] [NatCast F]
    (L : FloatLib F) :
    List Bool → Redis × MatchStage F × MatchStage F → Redis × MatchStage F × MatchStage F
  | [], st => st
  | false :: rest, st =>
    runTwo L rest ((matchStep L st.1 st.2.1).1, (matchStep L st.1 st.2.1).2, st.2.2)
  | true :: rest, st =>
    runTwo L rest ((matchStep L st.1 st.2.2).1, st.2.1, (matchStep L st.1 st.2.2).2)

/-! ## The type `float64` -/

/-- Rounding a rational to an integer, ties to the even one. -/
def roundHalfEven (x : ℚ) : ℤ :=
  if x - ⌊x⌋ < 1 / 2 then ⌊x⌋
  else if 1 / 2 < x - ⌊x⌋ then ⌊x⌋ + 1
  else if ⌊x⌋ % 2 = 0 then ⌊x⌋ else ⌊x⌋ + 1

/-- The exponent of the unit in the last place of a binary64 number near `q`:
53 significant bits, subnormal below `2 ^ (-1022)`. -/
def ulpExp (q : ℚ) : ℤ := max (Int.log 2 |q| - 52) (-1074)

/-- Rounding to nearest, ties to even, with 53 significant bits and no bound on the
exponent above. -/
def roundQ (q : ℚ) : ℚ := roundHalfEven (q / 2 ^ ulpExp q) * 2 ^ ulpExp q

/-- The rationals with at most 53 significant bits whose last bit is not below
`2 ^ (-1074)`. -/
def isBinary53 (q : ℚ) : Prop :=
  ∃ m e : ℤ, |m| < 2 ^ 53 ∧ -1074 ≤ e ∧ q = m * 2 ^ e

/-- The rationals that are finite binary64 numbers. -/
def isF64 (q : ℚ) : Prop :=
  isBinary53 q ∧ |q| < 2 ^ 1024

/-- A `float64`: NaN, an infinity, negative zero, or a finite value (`fin 0` is
positive zero). -/
inductive F64 where
  | nan
  | inf (neg : Bool)
  | negZero
  | fin (q : ℚ)
deriving DecidableEq

namespace F64

/-- The sign bit. -/
def signBit : F64 → Bool
  | nan => false
  | inf neg => neg
  | negZero => true
  | fin q => decide (q < 0)

/-- Zero with a sign. -/
def zero (neg : Bool) : F64 := if neg then negZero else fin 0

/-- The result of an operation whose exact value is `q`: rounded to nearest, an
infinity on overflow, and a zero result keeps the sign of `q`. -/
def ofRat (q : ℚ) : F64 :=
  if 2 ^ 1024 ≤ |roundQ q| then inf (decide (q < 0))
  else if roundQ q = 0 ∧ q < 0 then negZero
  else fin (roundQ q)

/-- Whether the value is a zero. -/
def isZero : F64 → Bool
  | negZero => true
  | fin q => decide (q = 0)
  | _ => false

/-- The exact value of a finite number. -/
def toRat : F64 → ℚ
  | fin q => q
  | _ => 0

/-- Addition of two `float64`. -/
def add : F64 → F64 → F64
  | nan, _ => nan
  | _, nan => nan
  | inf a, inf b => if a = b then inf a else nan
  | inf a, _ => inf a
  | _, inf b => inf b
  | negZero, negZero => negZero
  | negZero, fin b => fin b
  | fin a, negZero => fin a
  | fin a, fin b => ofRat (a + b)

/-- Negation of a `float64`. -/
def neg : F64 → F64
  | nan => nan
  | inf a => inf (!a)
  | negZero => fin 0
  | fin q => if q = 0 then negZero else fin (-q)

/-- Subtraction of two `float64`. -/
def sub (x y : F64) : F64 := add x (neg y)

/-- Multiplication of two `float64`. -/
def mul : F64 → F64 → F64
  | nan, _ => nan
  | _, nan => nan
  | inf a, y => if y.isZero then nan else inf (xor a y.signBit)
  | x, inf b => if x.isZero then nan else inf (xor x.signBit b)
  | x, y =>
    if x.isZero || y.isZero then zero (xor x.signBit y.signBit)
    else ofRat (x.toRat * y.toRat)

/-- Division of two `float64`. -/
def div : F64 → F64 → F64
  | nan, _ => nan
  | _, nan => nan
  | inf _, inf _ => nan
  | inf a, y => inf (xor a y.signBit)
  | x, inf b => zero (xor x.signBit b)
  | x, y =>
    if y.isZero then (if x.isZero then nan else inf (xor x.signBit y.signBit))
    else if x.isZero then zero (xor x.signBit y.signBit)
    else ofRat (x.toRat / y.toRat)

/-- The operator `+` on `float64`. -/
instance : Add F64 := ⟨add⟩

/-- The operator `-` on `float64`. -/
instance : Sub F64 := ⟨sub⟩

/-- The operator `*` on `float64`. -/
instance : Mul F64 := ⟨mul⟩

/-- The operator `/` on `float64`. -/
instance : Div F64 := ⟨div⟩

/-- The constant 1 as a `float64`. -/
instance : One F64 := ⟨fin 1⟩

/-- An untyped integer constant used as a `float64`: the constant rounded. -/
instance : NatCast F64 := ⟨fun n => ofRat n⟩

/-- The comparison `x <= y` of two `float64`. -/
def le : F64 → F64 → Bool
  | nan, _ => false
  | _, nan => false
  | inf true, _ => true
  | _, inf false => true
  | inf false, _ => false
  | _, inf true => false
  | x, y => decide (x.toRat ≤ y.toRat)

/-- The comparison `x < y` of two `float64`. -/
def lt : F64 → F64 → Bool
  | nan, _ => false
  | _, nan => false
  | inf true, inf true => false
  | inf true, _ => true
  | inf false, inf false => false
  | _, inf false => true
  | inf false, _ => false
  | _, inf true => false
  | x, y => decide (x.toRat < y.toRat)

end F64

/-- The conversion `int(f)` of a `float64` as compiled for amd64: the fraction is
discarded; NaN, the infinities and values whose integer part is outside the 64-bit
range give the least 64-bit integer. -/
def goInt : F64 → Int
  | F64.fin q =>
    if -2 ^ 63 ≤ (if 0 ≤ q then ⌊q⌋ else ⌈q⌉) ∧ (if 0 ≤ q then ⌊q⌋ else ⌈q⌉) < 2 ^ 63 then
      (if 0 ≤ q then ⌊q⌋ else ⌈q⌉)
    else -2 ^ 63
  | F64.negZero => 0
  | _ => -2 ^ 63

/-! ## Concrete inputs -/

/-- A reachable server with an empty keyspace on which no command fails. -/
def emptyRedis : Redis := ⟨fun _ => ∅, true, fun _ => false, []⟩

/-- A server whose hash "elo" holds one rating and one corrupt entry. -/
def sampleRedis : Redis :=
  ⟨fun key => if key = "elo" then ((∅ : Hash).insert "alice" "1616").insert "mallory" "abc"
    else ∅, true, fun _ => false, []⟩

/-- A reachable server with an empty keyspace on which every HSET of the field "B" of
"elo" fails and no other command does. -/
def flakyRedis : Redis :=
  ⟨fun _ => ∅, true, fun cmd => decide (cmd.take 3 = ["HSET", "elo", "B"]), []⟩

/-- A `FloatLib` whose text encoding is a finite table of texts and their values:
a text outside the table does not parse, a value outside it is sent as the empty
text. -/
def tableLib {F : Type} [DecidableEq F] (pow : F → F → F) (tbl : List (String × F))
    (toInt : F → Int) : FloatLib F :=
  ⟨pow, fun s => (tbl.find? (fun e => e.1 = s)).map (fun e => e.2),
    fun x => ((tbl.find? (fun e => e.2 = x)).map (fun e => e.1)).getD "", toInt⟩

/-- A power function known on finitely many arguments only, NaN elsewhere. -/
def tablePow (tbl : List ((F64 × F64) × F64)) (x y : F64) : F64 :=
  ((tbl.find? (fun e => e.1 = (x, y))).map (fun e => e.2)).getD F64.nan

/-- A server with the given hash under "elo", reachable, on which no command fails. -/
def redisWith (h : Hash) : Redis :=
  ⟨fun key => if key = "elo" then h else ∅, true, fun _ => false, []⟩

/-- A server on which "A" and "B" both hold the rating 124000. -/
def overflowRedis : Redis :=
  redisWith (((∅ : Hash).insert "A" "124000").insert "B" "124000")

/-- A server on which "A" holds the rating 0 and "B" the rating 8000. -/
def unevenRedis : Redis :=
  redisWith (((∅ : Hash).insert "A" "0").insert "B" "8000")

/-- A server on which "carol" holds the rating 1e19. -/
def hugeRedis : Redis :=
  redisWith ((∅ : Hash).insert "carol" "1e19")

/-- The values of `math.Pow` that the concrete runs below use: `10 ^ 0`, `10 ^ 4` and
`10 ^ 20` are exact, `10 ^ 310` overflows to positive infinity. -/
def samplePow : F64 → F64 → F64 :=
  tablePow [((F64.fin 10, F64.fin 0), F64.fin 1), ((F64.fin 10, F64.fin 4), F64.fin 10000),
    ((F64.fin 10, F64.fin 20), F64.fin (10 ^ 20)), ((F64.fin 10, F64.fin 310), F64.inf false)]

/-- The library on `float64` that the concrete runs below use: `samplePow`, the texts
of the ratings that occur, and `goInt`. -/
def sampleLib : FloatLib F64 :=
  tableLib samplePow
    [("0", F64.fin 0), ("32", F64.fin 32), ("1584", F64.fin 1584), ("1600", F64.fin 1600),
      ("1616", F64.fin 1616), ("7968", F64.fin 7968), ("8000", F64.fin 8000),
      ("124000", F64.fin 124000), ("10000000000000000000", F64.fin (10 ^ 19)),
      ("1e19", F64.fin (10 ^ 19)), ("NaN", F64.nan)]
    goInt

/-! ## The store and the function `allElos` -/

/-- Writing the flattened entries of a hash inserts them one by one. -/
theorem mapOfPairs_flatten (es : List (Sigma (fun _ : String => String))) (acc : Hash) :
    mapOfPairs acc (flatten es) = some (es.foldl (fun m e => m.insert e.1 e.2) acc) := by
  induction es generalizing acc with
  | nil => rfl
  | cons e rest ih => simp [flatten, mapOfPairs, ih]

/-- Lookup after inserting entries with distinct keys one by one. -/
theorem lookup_foldl_insert (es : List (Sigma (fun _ : String => String)))
    (hnd : es.NodupKeys) (acc : Hash) (a : String) :
    (es.foldl (fun m e => m.insert e.1 e.2) acc).lookup a
      = (es.dlookup a).orElse (fun _ => acc.lookup a) := by
  induction es generalizing acc with
  | nil => simp
  | cons e rest ih =>
    obtain ⟨k, v⟩ := e
    rw [List.nodupKeys_cons] at hnd
    rw [List.foldl_cons, ih hnd.2]
    by_cases h : a = k
    · subst h
      have : rest.dlookup a = none := by
        rw [List.dlookup_eq_none]; exact hnd.1
      simp [this, AList.lookup_insert]
    · have h2 : k ≠ a := fun e => h e.symm
      rw [List.dlookup_cons_ne _ _ h, AList.lookup_insert_ne h]

/-- The method `Map()` on the reply of HGETALL gives a map with the lookups of the
stored hash. -/
theorem Map_HGETALL_reply (h : Hash) :
    ∃ elos, (Resp.array (flatten h.entries)).Map = some elos ∧
      ∀ a, elos.lookup a = h.lookup a := by
  refine ⟨_, mapOfPairs_flatten _ _, fun a => ?_⟩
  rw [lookup_foldl_insert _ h.nodupKeys]
  simp [AList.lookup]

/-- No command changes which commands fail. -/
theorem Cmd_fails_eq (c : Redis) (cmd : String) (args : List String) :
    (Cmd c cmd args).1.fails = c.fails := by
  unfold Cmd
  simp only
  split_ifs <;> (try split) <;> (try split) <;> rfl

/-- No command changes whether the pool gives a connection. -/
theorem Cmd_reachable_eq (c : Redis) (cmd : String) (args : List String) :
    (Cmd c cmd args).1.reachable = c.reachable := by
  unfold Cmd
  simp only
  split_ifs <;> (try split) <;> (try split) <;> rfl

/-- Every command is logged, whatever its outcome. -/
theorem Cmd_log_eq (c : Redis) (cmd : String) (args : List String) :
    (Cmd c cmd args).1.log = c.log ++ [cmd :: args] := by
  unfold Cmd
  simp only
  split_ifs <;> (try split) <;> (try split) <;> rfl

/-- A command that fails is logged and answered with an error, and nothing else changes. -/
theorem Cmd_of_fails (c : Redis) (cmd : String) (args : List String)
    (h : c.fails (cmd :: args) = true) :
    Cmd c cmd args = ({ c with log := c.log ++ [cmd :: args] }, Resp.err) := by
  simp [Cmd, h]

/-- The command HGETALL with one key, when it does not fail. -/
theorem Cmd_HGETALL (c : Redis) (key : String) (h : c.fails ["HGETALL", key] = false) :
    Cmd c "HGETALL" [key]
      = ({ c with log := c.log ++ [["HGETALL", key]] },
          Resp.array (flatten (c.db key).entries)) := by
  simp [Cmd, h]

/-- The command HSET with a key, a field and a value, when it does not fail. -/
theorem Cmd_HSET (c : Redis) (key f v : String) (h : c.fails ["HSET", key, f, v] = false) :
    Cmd c "HSET" [key, f, v]
      = ({ c with log := c.log ++ [["HSET", key, f, v]],
                  db := Function.update c.db key ((c.db key).insert f v) },
          Resp.int ((((c.db key).insert f v).keys.length : Int) - (c.db key).keys.length)) := by
  simp [Cmd, h, mapOfPairs]

/-- The command HSET with a key and one more argument is answered with an error and
leaves the keyspace as it was. -/
theorem Cmd_HSET_two_args (c : Redis) (key f : String) :
    Cmd c "HSET" [key, f] = ({ c with log := c.log ++ [["HSET", key, f]] }, Resp.err) := by
  by_cases h : c.fails ["HSET", key, f] = true
  · exact Cmd_of_fails c _ _ h
  · simp [Cmd, h]

/-- The command HSET with a key, a field and a value errs exactly when it is made to fail. -/
theorem Cmd_HSET_Err (c : Redis) (key f v : String) :
    (Cmd c "HSET" [key, f, v]).2.Err = c.fails ["HSET", key, f, v] := by
  by_cases h : c.fails ["HSET", key, f, v] = true
  · rw [Cmd_of_fails c _ _ h, h]; rfl
  · simp only [Bool.not_eq_true] at h
    rw [Cmd_HSET c _ _ _ h, h]; rfl

/-- The keyspace after HSET with a key, a field and a value. -/
theorem Cmd_HSET_db (c : Redis) (key f v : String) :
    (Cmd c "HSET" [key, f, v]).1.db
      = if c.fails ["HSET", key, f, v] = true then c.db
        else Function.update c.db key ((c.db key).insert f v) := by
  by_cases h : c.fails ["HSET", key, f, v] = true
  · rw [Cmd_of_fails c _ _ h, if_pos h]
  · rw [if_neg h]
    simp only [Bool.not_eq_true] at h
    rw [Cmd_HSET c _ _ _ h]

/-- The command HDEL with a key and one field, when it does not fail. -/
theorem Cmd_HDEL (c : Redis) (key f : String) (h : c.fails ["HDEL", key, f] = false) :
    Cmd c "HDEL" [key, f]
      = ({ c with log := c.log ++ [["HDEL", key, f]],
                  db := Function.update c.db key ((c.db key).erase f) },
          Resp.int (((c.db key).keys.length : Int) - ((c.db key).erase f).keys.length)) := by
  simp [Cmd, h]

/-- The HDEL of one field of "elo": the hash loses the field unless the command fails. -/
theorem Cmd_HDEL_db (c : Redis) (f : String) :
    (Cmd c "HDEL" ["elo", f]).1.db
      = Function.update c.db "elo"
          (if c.fails ["HDEL", "elo", f] then c.db "elo" else (c.db "elo").erase f) := by
  by_cases h : c.fails ["HDEL", "elo", f] = true
  · rw [Cmd_of_fails c _ _ h]
    simp [h]
  · simp only [Bool.not_eq_true] at h
    rw [Cmd_HDEL c _ _ h]
    simp [h]

/-- Lookup after erasing a list of fields. -/
theorem lookup_foldl_erase (xs : List String) (h : Hash) (a : String) :
    (xs.foldl (fun h x => h.erase x) h).lookup a = if a ∈ xs then none else h.lookup a := by
  induction xs generalizing h with
  | nil => simp
  | cons x rest ih =>
    rw [List.foldl_cons, ih]
    by_cases hx : a = x
    · subst hx
      simp [AList.lookup_erase]
    · by_cases hr : a ∈ rest
      · simp [hr]
      · simp [hr, hx, AList.lookup_erase_ne hx]

/-- The loop does not change which commands fail. -/
theorem allElosLoop_fails {F : Type} (L : FloatLib F) (es : List (Sigma (fun _ : String => String)))
    (st : Redis × AList (fun _ : String => F)) :
    (allElosLoop L es st).1.fails = st.1.fails := by
  induction es generalizing st with
  | nil => rfl
  | cons e rest ih =>
    unfold allElosLoop
    split
    · rw [ih]; exact Cmd_fails_eq _ _ _
    · rw [ih]

/-- The loop does not change whether the pool gives a connection. -/
theorem allElosLoop_reachable {F : Type}
    (L : FloatLib F) (es : List (Sigma (fun _ : String => String)))
    (st : Redis × AList (fun _ : String => F)) :
    (allElosLoop L es st).1.reachable = st.1.reachable := by
  induction es generalizing st with
  | nil => rfl
  | cons e rest ih =>
    unfold allElosLoop
    split
    · rw [ih]; exact Cmd_reachable_eq _ _ _
    · rw [ih]

/-- The names for which the loop sends HDEL. -/
theorem allElosLoop_log {F : Type} (L : FloatLib F) (es : List (Sigma (fun _ : String => String)))
    (st : Redis × AList (fun _ : String => F)) :
    (allElosLoop L es st).1.log
      = st.1.log ++ ((es.filter (fun e => (L.parseFloat e.2).isNone)).map
          (fun e => ["HDEL", "elo", e.1])) := by
  induction es generalizing st with
  | nil => simp [allElosLoop]
  | cons e rest ih =>
    unfold allElosLoop
    split
    · rename_i hp
      rw [ih, Cmd_log_eq]
      simp [hp]
    · rename_i f hp
      rw [ih]
      simp [hp]

/-- The keyspace after the loop: the hash "elo" loses the fields whose text does not
parse and whose HDEL does not fail. -/
theorem allElosLoop_db {F : Type} (L : FloatLib F) (es : List (Sigma (fun _ : String => String)))
    (st : Redis × AList (fun _ : String => F)) :
    (allElosLoop L es st).1.db
      = Function.update st.1.db "elo"
          (((es.filter (fun e => (L.parseFloat e.2).isNone
              && !st.1.fails ["HDEL", "elo", e.1])).map (fun e => e.1)).foldl
            (fun h x => h.erase x) (st.1.db "elo")) := by
  induction es generalizing st with
  | nil => simp [allElosLoop]
  | cons e rest ih =>
    unfold allElosLoop
    split
    · rename_i hp
      rw [ih, Cmd_fails_eq, Cmd_HDEL_db]
      by_cases hf : st.1.fails ["HDEL", "elo", e.1] = true
      · simp [hp, hf]
      · simp only [Bool.not_eq_true] at hf
        simp [hp, hf]
    · rename_i f hp
      rw [ih]
      simp [hp]

/-- The map built by the loop: a parsed value for each entry that parses, on top of the
map the loop started from. -/
theorem allElosLoop_lookup {F : Type}
    (L : FloatLib F) (es : List (Sigma (fun _ : String => String)))
    (hnd : es.NodupKeys) (st : Redis × AList (fun _ : String => F)) (a : String) :
    (allElosLoop L es st).2.lookup a
      = ((es.dlookup a).bind L.parseFloat).orElse (fun _ => st.2.lookup a) := by
  induction es generalizing st with
  | nil => simp [allElosLoop]
  | cons e rest ih =>
    obtain ⟨k, v⟩ := e
    rw [List.nodupKeys_cons] at hnd
    by_cases h : a = k
    · subst h
      have hr : rest.dlookup a = none := by
        rw [List.dlookup_eq_none]; exact hnd.1
      unfold allElosLoop
      split
      · rename_i hp
        simp only at hp
        rw [ih hnd.2]
        simp [hr, hp]
      · rename_i f hp
        simp only at hp
        rw [ih hnd.2]
        simp [hr, hp, AList.lookup_insert]
    · unfold allElosLoop
      split
      · rw [ih hnd.2, List.dlookup_cons_ne _ _ h]
      · rw [ih hnd.2, List.dlookup_cons_ne _ _ h]
        simp only
        rw [AList.lookup_insert_ne h]

/-- The function `allElos` when HGETALL fails: the command is logged and the result is
`nil`. -/
theorem allElos_of_fails {F : Type} (L : FloatLib F) (c : Redis)
    (h : c.fails ["HGETALL", "elo"] = true) :
    allElos L c = ({ c with log := c.log ++ [["HGETALL", "elo"]] }, none) := by
  simp [allElos, Cmd_of_fails c _ _ h, Resp.Err]

/-- What `allElos` does when HGETALL is answered: the loop runs over a map with the
lookups of the stored hash. -/
theorem allElos_eq_loop {F : Type} (L : FloatLib F) (c : Redis)
    (h : c.fails ["HGETALL", "elo"] = false) :
    ∃ elos : Hash, (∀ a, elos.lookup a = (c.db "elo").lookup a) ∧
      allElos L c
        = ((allElosLoop L elos.entries
              ({ c with log := c.log ++ [["HGETALL", "elo"]] }, ∅)).1,
            some (allElosLoop L elos.entries
              ({ c with log := c.log ++ [["HGETALL", "elo"]] }, ∅)).2) := by
  obtain ⟨elos, hmap, hlook⟩ := Map_HGETALL_reply (c.db "elo")
  refine ⟨elos, hlook, ?_⟩
  simp [allElos, Cmd_HGETALL c _ h, Resp.Err, hmap]

/-- The function `allElos` does not change which commands fail. -/
theorem allElos_fails {F : Type}
    (L : FloatLib F) (c : Redis) : (allElos L c).1.fails = c.fails := by
  by_cases h : c.fails ["HGETALL", "elo"] = true
  · rw [allElos_of_fails L c h]
  · simp only [Bool.not_eq_true] at h
    obtain ⟨elos, -, heq⟩ := allElos_eq_loop L c h
    rw [heq]
    simp only
    rw [allElosLoop_fails]

/-- The function `allElos` does not change whether the pool gives a connection. -/
theorem allElos_reachable {F : Type} (L : FloatLib F) (c : Redis) :
    (allElos L c).1.reachable = c.reachable := by
  by_cases h : c.fails ["HGETALL", "elo"] = true
  · rw [allElos_of_fails L c h]
  · simp only [Bool.not_eq_true] at h
    obtain ⟨elos, -, heq⟩ := allElos_eq_loop L c h
    rw [heq]
    simp only
    rw [allElosLoop_reachable]

/-- The map returned by `allElos` when HGETALL is answered is the ratings table. -/
theorem allElos_snd {F : Type} (L : FloatLib F) (c : Redis)
    (h : c.fails ["HGETALL", "elo"] = false) :
    ∃ retval, (allElos L c).2 = some retval ∧
      ∀ a, retval.lookup a = ratings L (c.db "elo") a := by
  obtain ⟨elos, hlook, heq⟩ := allElos_eq_loop L c h
  refine ⟨_, by rw [heq], fun a => ?_⟩
  rw [allElosLoop_lookup L _ elos.nodupKeys]
  have : List.dlookup a elos.entries = (c.db "elo").lookup a := hlook a
  rw [this]
  simp [ratings]

/-- The function `allElos` touches no key other than "elo". -/
theorem allElos_db_of_ne {F : Type} (L : FloatLib F) (c : Redis) (key : String) (hk : key ≠ "elo") :
    (allElos L c).1.db key = c.db key := by
  by_cases h : c.fails ["HGETALL", "elo"] = true
  · rw [allElos_of_fails L c h]
  · simp only [Bool.not_eq_true] at h
    obtain ⟨elos, -, heq⟩ := allElos_eq_loop L c h
    rw [heq]
    simp only
    rw [allElosLoop_db, Function.update_noteq hk]

/-- The hash "elo" after `allElos`: an entry stays unless its value does not parse and
its HDEL is not made to fail. -/
theorem allElos_lookup_elo {F : Type} (L : FloatLib F) (c : Redis)
    (h : c.fails ["HGETALL", "elo"] = false) (a : String) :
    ((allElos L c).1.db "elo").lookup a
      = ((c.db "elo").lookup a).filter
          (fun v => (L.parseFloat v).isSome || c.fails ["HDEL", "elo", a]) := by
  obtain ⟨elos, hlook, heq⟩ := allElos_eq_loop L c h
  rw [heq]
  simp only
  rw [allElosLoop_db, Function.update_same, lookup_foldl_erase]
  simp only
  cases hv : (c.db "elo").lookup a with
  | none =>
    have hnot : a ∉ elos := by
      rw [← AList.lookup_eq_none, hlook, hv]
    rw [if_neg]
    · rfl
    · intro hmem
      rw [List.mem_map] at hmem
      obtain ⟨e, he, rfl⟩ := hmem
      have := (List.mem_filter.1 he).1
      exact hnot (AList.mem_keys.2 (List.mem_keys_of_mem this))
  | some v =>
    have hmemv : Sigma.mk a v ∈ elos.entries := by
      rw [← AList.mem_lookup_iff, hlook, hv]; rfl
    by_cases hkeep : ((L.parseFloat v).isSome || c.fails ["HDEL", "elo", a]) = true
    · rw [if_neg]
      · simp [Option.filter, hkeep]
      · intro hmem
        rw [List.mem_map] at hmem
        obtain ⟨e, he, hea⟩ := hmem
        obtain ⟨k, w⟩ := e
        simp only at hea
        subst hea
        rw [List.mem_filter] at he
        have hw : w = v := by
          have h1 : w ∈ elos.lookup k := AList.mem_lookup_iff.2 he.1
          have h2 : v ∈ elos.lookup k := AList.mem_lookup_iff.2 hmemv
          exact Option.mem_unique h1 h2
        subst hw
        have := he.2
        simp only [Bool.and_eq_true, Option.isNone_iff_eq_none, Bool.not_eq_true'] at this
        simp [this.1, this.2] at hkeep
    · rw [if_pos]
      · simp [Option.filter, hkeep]
      · rw [List.mem_map]
        refine ⟨⟨a, v⟩, List.mem_filter.2 ⟨hmemv, ?_⟩, rfl⟩
        simp only [Bool.or_eq_true, not_or, Bool.not_eq_true, Option.not_isSome,
          Option.isNone_iff_eq_none] at hkeep
        simp [hkeep.1, hkeep.2]

/-- The ratings table is the same before and after `allElos`. -/
theorem allElos_ratings {F : Type} (L : FloatLib F) (c : Redis) (a : String) :
    ratings L ((allElos L c).1.db "elo") a = ratings L (c.db "elo") a := by
  by_cases h : c.fails ["HGETALL", "elo"] = true
  · rw [allElos_of_fails L c h]
  · simp only [Bool.not_eq_true] at h
    unfold ratings
    rw [allElos_lookup_elo L c h]
    cases hv : (c.db "elo").lookup a with
    | none => rfl
    | some v =>
      cases hp : L.parseFloat v with
      | none =>
        by_cases hf : c.fails ["HDEL", "elo", a] = true
        · simp [Option.filter, hp, hf]
        · simp [Option.filter, hp, hf]
      | some f => simp [Option.filter, hp]

/-- The commands `allElos` sends when HGETALL is answered: HGETALL, then one HDEL for
each name whose stored text does not parse. -/
theorem allElos_log {F : Type} (L : FloatLib F) (c : Redis)
    (h : c.fails ["HGETALL", "elo"] = false) :
    ∃ dels : List String, dels.Nodup
      ∧ (allElos L c).1.log
          = c.log ++ ["HGETALL", "elo"] :: dels.map (fun name => ["HDEL", "elo", name])
      ∧ ∀ name, name ∈ dels ↔
          ∃ s, (c.db "elo").lookup name = some s ∧ L.parseFloat s = none := by
  obtain ⟨elos, hlook, heq⟩ := allElos_eq_loop L c h
  refine ⟨(elos.entries.filter (fun e => (L.parseFloat e.2).isNone)).map (fun e => e.1),
    ?_, ?_, ?_⟩
  · have hk : elos.entries.keys.Nodup := elos.nodupKeys
    have hsub : ((elos.entries.filter (fun e => (L.parseFloat e.2).isNone)).map
        (fun e => e.1)).Sublist elos.entries.keys :=
      (List.filter_sublist _).map _
    exact hsub.nodup hk
  · rw [heq]
    simp only
    rw [allElosLoop_log]
    simp [List.map_map, Function.comp_def]
  · intro name
    rw [List.mem_map]
    constructor
    · rintro ⟨⟨k, v⟩, he, rfl⟩
      rw [List.mem_filter] at he
      refine ⟨v, ?_, by simpa using he.2⟩
      rw [← hlook]
      exact AList.mem_lookup_iff.2 he.1
    · rintro ⟨s, hs, hp⟩
      refine ⟨⟨name, s⟩, List.mem_filter.2 ⟨?_, by simp [hp]⟩, rfl⟩
      rw [← AList.mem_lookup_iff, hlook, hs]
      rfl

/-! ## The handlers -/

/-- The handler `MatchHandler` when the pool gives no connection. -/
theorem MatchHandler_of_unreachable {F : Type} [Add F] [Sub F] [Mul F] [Div F] [One F] [NatCast F]
    (L : FloatLib F) (p : Redis) (m : Match)
    (h : p.reachable = false) :
    MatchHandler L p (some m) = (p, ⟨500, "Could not connect to redis", none⟩) := by
  simp [MatchHandler, poolGet, h]

/-- The handler `MatchHandler` when HGETALL fails. -/
theorem MatchHandler_of_read_fails {F : Type} [Add F] [Sub F] [Mul F] [Div F] [One F] [NatCast F]
    (L : FloatLib F) (p : Redis) (m : Match)
    (hreach : p.reachable = true) (h : p.fails ["HGETALL", "elo"] = true) :
    MatchHandler L p (some m)
      = ({ p with log := p.log ++ [["HGETALL", "elo"]] },
          ⟨500, "Could not retrieve elos from redis", none⟩) := by
  simp [MatchHandler, poolGet, hreach, allElos_of_fails L p h]

/-- The handler after a successful read: two HSET commands with the new ratings, then
the status chosen from their replies. -/
theorem MatchHandler_of_read {F : Type} [Add F] [Sub F] [Mul F] [Div F] [One F] [NatCast F]
    (L : FloatLib F) (p : Redis) (m : Match)
    (hreach : p.reachable = true) (hread : p.fails ["HGETALL", "elo"] = false)
    (new : F × F)
    (hnew : new = eloUpdate L.pow ((ratings L (p.db "elo") m.Winner).getD 1600)
      ((ratings L (p.db "elo") m.Loser).getD 1600)) :
    MatchHandler L p (some m)
      = ((Cmd (Cmd (allElos L p).1 "HSET" ["elo", m.Winner, L.formatFloat new.1]).1
            "HSET" ["elo", m.Loser, L.formatFloat new.2]).1,
          if ((Cmd (allElos L p).1 "HSET" ["elo", m.Winner, L.formatFloat new.1]).2.Err
            || (Cmd (Cmd (allElos L p).1 "HSET" ["elo", m.Winner, L.formatFloat new.1]).1
            "HSET" ["elo", m.Loser, L.formatFloat new.2]).2.Err) = true
          then ⟨500, "Could not update ELO stats", none⟩ else ⟨200, "", none⟩) := by
  obtain ⟨retval, hsnd, hlook⟩ := allElos_snd L p hread
  subst hnew
  simp only [MatchHandler, poolGet, hreach, if_true, hsnd, hlook, initialElo, Nat.cast_ofNat]
  split_ifs <;> rfl

/-- The handler when the read and both writes succeed. -/
theorem MatchHandler_of_ok {F : Type} [Add F] [Sub F] [Mul F] [Div F] [One F] [NatCast F]
    (L : FloatLib F) (p : Redis) (m : Match)
    (hreach : p.reachable = true) (hread : p.fails ["HGETALL", "elo"] = false)
    (new : F × F)
    (hnew : new = eloUpdate L.pow ((ratings L (p.db "elo") m.Winner).getD 1600)
      ((ratings L (p.db "elo") m.Loser).getD 1600))
    (hw : p.fails ["HSET", "elo", m.Winner, L.formatFloat new.1] = false)
    (hl : p.fails ["HSET", "elo", m.Loser, L.formatFloat new.2] = false) :
    (MatchHandler L p (some m)).1.db
        = Function.update (allElos L p).1.db "elo"
            ((((allElos L p).1.db "elo").insert m.Winner (L.formatFloat new.1)).insert
              m.Loser (L.formatFloat new.2))
      ∧ (MatchHandler L p (some m)).1.log
        = (allElos L p).1.log ++ [["HSET", "elo", m.Winner, L.formatFloat new.1],
            ["HSET", "elo", m.Loser, L.formatFloat new.2]]
      ∧ (MatchHandler L p (some m)).2 = ⟨200, "", none⟩ := by
  rw [MatchHandler_of_read L p m hreach hread new hnew]
  have h1 : (allElos L p).1.fails ["HSET", "elo", m.Winner, L.formatFloat new.1] = false := by
    rw [allElos_fails]; exact hw
  rw [Cmd_HSET _ _ _ _ h1]
  dsimp only
  rw [Cmd_HSET _ _ _ _ (by rw [allElos_fails]; exact hl)]
  simp [Resp.Err]

/-- The handler `MatchHandler` does not change which commands fail. -/
theorem MatchHandler_fails {F : Type} [Add F] [Sub F] [Mul F] [Div F] [One F] [NatCast F]
    (L : FloatLib F) (p : Redis) (body : Option Match) :
    (MatchHandler L p body).1.fails = p.fails := by
  cases body with
  | none => rfl
  | some m =>
    by_cases hr : p.reachable = true
    · simp only [MatchHandler, poolGet, hr, if_true]
      cases h2 : (allElos L p).2 with
      | none => simp [allElos_fails]
      | some elos =>
        simp only
        split_ifs <;> simp [Cmd_fails_eq, allElos_fails]
    · simp [MatchHandler, poolGet, hr]

/-- The handler `MatchHandler` does not change whether the pool gives a connection. -/
theorem MatchHandler_reachable {F : Type} [Add F] [Sub F] [Mul F] [Div F] [One F] [NatCast F]
    (L : FloatLib F) (p : Redis) (body : Option Match) :
    (MatchHandler L p body).1.reachable = p.reachable := by
  cases body with
  | none => rfl
  | some m =>
    by_cases hr : p.reachable = true
    · simp only [MatchHandler, poolGet, hr, if_true]
      cases h2 : (allElos L p).2 with
      | none => simp [allElos_reachable, hr]
      | some elos =>
        simp only
        split_ifs <;> simp [Cmd_reachable_eq, allElos_reachable, hr]
    · simp [MatchHandler, poolGet, hr]

/-- The winner's rating after a successful match on a server where no command fails,
and the ratings of the players not in the match. -/
theorem MatchHandler_winner_rating {F : Type} [Add F] [Sub F] [Mul F] [Div F] [One F] [NatCast F]
    (L : FloatLib F) (p : Redis) (w l : String) (Rw Rl : F)
    (hwl : w ≠ l) (hreach : p.reachable = true) (hok : ∀ cmd, p.fails cmd = false)
    (hRw : (ratings L (p.db "elo") w).getD 1600 = Rw)
    (hRl : (ratings L (p.db "elo") l).getD 1600 = Rl)
    (hrt : L.parseFloat (L.formatFloat (eloUpdate L.pow Rw Rl).1)
      = some (eloUpdate L.pow Rw Rl).1) :
    ratings L ((MatchHandler L p (some ⟨w, l⟩)).1.db "elo") w = some (eloUpdate L.pow Rw Rl).1
      ∧ ∀ x, x ≠ w → x ≠ l →
          ratings L ((MatchHandler L p (some ⟨w, l⟩)).1.db "elo") x
            = ratings L (p.db "elo") x := by
  obtain ⟨hdb, -, -⟩ :=
    MatchHandler_of_ok L p ⟨w, l⟩ hreach (hok _) (eloUpdate L.pow Rw Rl)
      (by rw [hRw, hRl]) (hok _) (hok _)
  simp only at hdb
  constructor
  · unfold ratings
    rw [hdb, Function.update_same, AList.lookup_insert_ne hwl, AList.lookup_insert]
    exact hrt
  · intro x hxw hxl
    rw [← allElos_ratings L p x]
    unfold ratings
    rw [hdb, Function.update_same, AList.lookup_insert_ne hxl, AList.lookup_insert_ne hxw]

/-- The handler `EloHandler` when the pool gives no connection. -/
theorem EloHandler_of_unreachable {F : Type}
    (L : FloatLib F) (p : Redis)
    (player : Option String) (h : p.reachable = false) :
    EloHandler L p player = (p, ⟨500, "Could not connect to redis", none⟩) := by
  simp [EloHandler, poolGet, h]

/-- The handler `EloHandler` when HGETALL fails. -/
theorem EloHandler_of_read_fails {F : Type}
    (L : FloatLib F) (p : Redis)
    (player : Option String) (hreach : p.reachable = true)
    (h : p.fails ["HGETALL", "elo"] = true) :
    EloHandler L p player
      = ({ p with log := p.log ++ [["HGETALL", "elo"]] },
          ⟨500, "Could not retrieve elos from redis", none⟩) := by
  simp [EloHandler, poolGet, hreach, allElos_of_fails L p h]

/-- The handler `EloHandler` for one player after a successful read. -/
theorem EloHandler_of_read {F : Type} (L : FloatLib F) (p : Redis) (name : String)
    (hreach : p.reachable = true) (hread : p.fails ["HGETALL", "elo"] = false) :
    EloHandler L p (some name)
      = ((allElos L p).1, ⟨200, "", some (AList.singleton name
          (match ratings L (p.db "elo") name with
            | some elo => L.toInt elo
            | none => 1600))⟩) := by
  obtain ⟨retval, hsnd, hlook⟩ := allElos_snd L p hread
  simp only [EloHandler, poolGet, hreach, if_true, hsnd, hlook]
  cases ratings L (p.db "elo") name <;> simp [AList.insert_empty, initialElo]

/-- The handler `PlayerHandler` sends HSET with two arguments, which the server
rejects: the keyspace stays as it was. -/
theorem PlayerHandler_db {F : Type} [NatCast F]
    (L : FloatLib F) (p : Redis) (player : String) :
    (PlayerHandler L p player).1.db = p.db
      ∧ (PlayerHandler L p player).1.fails = p.fails
      ∧ (PlayerHandler L p player).1.reachable = p.reachable
      ∧ (p.reachable = true →
          (PlayerHandler L p player).1.log
            = p.log ++ [["HSET", player, L.formatFloat 1600]]) := by
  by_cases hr : p.reachable = true
  · simp [PlayerHandler, poolGet, hr, Cmd_HSET_two_args, initialElo]
  · simp [PlayerHandler, poolGet, hr]

/-- Registering a player changes nothing that `EloHandler` answers. -/
theorem EloHandler_after_PlayerHandler {F : Type} [NatCast F]
    (L : FloatLib F) (p : Redis)
    (x name : String) :
    (EloHandler L (PlayerHandler L p x).1 (some name)).2 = (EloHandler L p (some name)).2 := by
  obtain ⟨hdb, hf, hr, -⟩ := PlayerHandler_db L p x
  by_cases hreach : p.reachable = true
  · by_cases hread : p.fails ["HGETALL", "elo"] = true
    · rw [EloHandler_of_read_fails L p _ hreach hread,
        EloHandler_of_read_fails L _ _ (hr.trans hreach) (by rw [hf]; exact hread)]
    · simp only [Bool.not_eq_true] at hread
      rw [EloHandler_of_read L p _ hreach hread,
        EloHandler_of_read L _ _ (hr.trans hreach) (by rw [hf]; exact hread), hdb]
  · simp only [Bool.not_eq_true] at hreach
    rw [EloHandler_of_unreachable L p _ hreach,
      EloHandler_of_unreachable L _ _ (hr.trans hreach)]

/-- Three steps of one request are the handler. -/
theorem matchStep_three {F : Type} [Add F] [Sub F] [Mul F] [Div F] [One F] [NatCast F]
    (L : FloatLib F) (p : Redis) (m : Match) :
    matchStep L (matchStep L (matchStep L p (MatchStage.decoded m)).1
        (matchStep L p (MatchStage.decoded m)).2).1
      (matchStep L (matchStep L p (MatchStage.decoded m)).1
        (matchStep L p (MatchStage.decoded m)).2).2
      = ((MatchHandler L p (some m)).1, MatchStage.finished (MatchHandler L p (some m)).2) := by
  by_cases hr : p.reachable = true
  · simp only [MatchHandler, matchStep, poolGet, hr, if_true]
    cases h2 : (allElos L p).2 with
    | none => simp [matchStep]
    | some elos =>
      simp only [matchStep]
      split_ifs <;> rfl
  · simp [MatchHandler, matchStep, poolGet, hr]

/-- The schedule that lets the first request finish before the second starts is the
two handlers one after the other. -/
theorem runTwo_sequential {F : Type} [Add F] [Sub F] [Mul F] [Div F] [One F] [NatCast F]
    (L : FloatLib F) (p : Redis) (m1 m2 : Match) :
    (runTwo L [false, false, false, true, true, true]
        (p, MatchStage.decoded m1, MatchStage.decoded m2)).1
      = (MatchHandler L (MatchHandler L p (some m1)).1 (some m2)).1 := by
  simp only [runTwo]
  rw [matchStep_three L p m1]
  simp only
  rw [matchStep_three L _ m2]

/-- The first step of a request when the pool gives a connection and HGETALL is
answered. -/
theorem matchStep_decoded {F : Type} [Add F] [Sub F] [Mul F] [Div F] [One F] [NatCast F]
    (L : FloatLib F) (p : Redis) (m : Match)
    (hreach : p.reachable = true) (hread : p.fails ["HGETALL", "elo"] = false) :
    matchStep L p (MatchStage.decoded m)
      = ((allElos L p).1, MatchStage.computed m
          (eloUpdate L.pow ((ratings L (p.db "elo") m.Winner).getD 1600)
            ((ratings L (p.db "elo") m.Loser).getD 1600))) := by
  obtain ⟨retval, hsnd, hlook⟩ := allElos_snd L p hread
  simp only [matchStep, poolGet, hreach, if_true, hsnd, hlook, initialElo, Nat.cast_ofNat]

/-- The second step of a request: the HSET of the winner. -/
theorem matchStep_computed {F : Type} [Add F] [Sub F] [Mul F] [Div F] [One F] [NatCast F]
    (L : FloatLib F) (c : Redis) (m : Match) (newElos : F × F) :
    matchStep L c (MatchStage.computed m newElos)
      = ((Cmd c "HSET" ["elo", m.Winner, L.formatFloat newElos.1]).1,
          MatchStage.winnerWritten m newElos
            (Cmd c "HSET" ["elo", m.Winner, L.formatFloat newElos.1]).2) := rfl

/-- The server after the third step of a request: the HSET of the loser. -/
theorem matchStep_winnerWritten_fst {F : Type} [Add F] [Sub F] [Mul F] [Div F] [One F] [NatCast F]
    (L : FloatLib F) (c : Redis) (m : Match) (newElos : F × F)
    (winnerResp : Resp) :
    (matchStep L c (MatchStage.winnerWritten m newElos winnerResp)).1
      = (Cmd c "HSET" ["elo", m.Loser, L.formatFloat newElos.2]).1 := by
  simp only [matchStep]
  split_ifs <;> rfl

/-- Two requests with the same winner, the second reading before the first writes, on a
server where no command fails: the winner's field holds what the second request wrote. -/
theorem runTwo_interleaved {F : Type} [Add F] [Sub F] [Mul F] [Div F] [One F] [NatCast F]
    (L : FloatLib F) (p : Redis) (w l1 l2 : String)
    (hreach : p.reachable = true) (hok : ∀ cmd, p.fails cmd = false) (hne : w ≠ l2) :
    ((runTwo L [false, true, false, false, true, true]
        (p, MatchStage.decoded ⟨w, l1⟩, MatchStage.decoded ⟨w, l2⟩)).1.db "elo").lookup w
      = some (L.formatFloat (eloUpdate L.pow ((ratings L (p.db "elo") w).getD 1600)
          ((ratings L (p.db "elo") l2).getD 1600)).1) := by
  have hf1 : (allElos L p).1.fails = p.fails := allElos_fails L p
  have hr1 : (allElos L p).1.reachable = true := (allElos_reachable L p).trans hreach
  have hok1 : ∀ cmd, (allElos L p).1.fails cmd = false := fun cmd => by rw [hf1]; exact hok cmd
  have hf2 : (allElos L (allElos L p).1).1.fails = p.fails := by
    rw [allElos_fails, hf1]
  simp only [runTwo]
  rw [matchStep_decoded L p _ hreach (hok _)]
  simp only
  rw [matchStep_decoded L _ _ hr1 (hok1 _)]
  simp only [matchStep_computed, matchStep_winnerWritten_fst, Cmd_HSET_db, Cmd_fails_eq, hf2,
    hok, allElos_ratings]
  simp [AList.lookup_insert, AList.lookup_insert_ne hne]

/-- On a server where no command fails the interleaved schedule ends both requests
with status 200. -/
theorem runTwo_interleaved_finished {F : Type} [Add F] [Sub F] [Mul F] [Div F] [One F] [NatCast F]
    (L : FloatLib F) (p : Redis) (m1 m2 : Match)
    (hreach : p.reachable = true) (hok : ∀ cmd, p.fails cmd = false) :
    (runTwo L [false, true, false, false, true, true]
        (p, MatchStage.decoded m1, MatchStage.decoded m2)).2
      = (MatchStage.finished ⟨200, "", none⟩, MatchStage.finished ⟨200, "", none⟩) := by
  have hf1 : (allElos L p).1.fails = p.fails := allElos_fails L p
  have hr1 : (allElos L p).1.reachable = true := (allElos_reachable L p).trans hreach
  have hok1 : ∀ cmd, (allElos L p).1.fails cmd = false := fun cmd => by rw [hf1]; exact hok cmd
  have hf2 : (allElos L (allElos L p).1).1.fails = p.fails := by
    rw [allElos_fails, hf1]
  simp only [runTwo]
  rw [matchStep_decoded L p _ hreach (hok _)]
  simp only
  rw [matchStep_decoded L _ _ hr1 (hok1 _)]
  simp only [matchStep_computed, matchStep_winnerWritten_fst]
  simp [matchStep, Cmd_HSET_Err, Cmd_fails_eq, hf2, hok]

/-- When both powers are positive the expected scores lie strictly between 0 and 1 and
sum to 1. -/
theorem expectedScores_of_pos {F : Type} [LinearOrderedField F] (pow : F → F → F) (Rw Rl : F)
    (hw : 0 < pow 10 (Rw / 400)) (hl : 0 < pow 10 (Rl / 400)) :
    0 < (expectedScores pow Rw Rl).1 ∧ (expectedScores pow Rw Rl).1 < 1
      ∧ 0 < (expectedScores pow Rw Rl).2 ∧ (expectedScores pow Rw Rl).2 < 1
      ∧ (expectedScores pow Rw Rl).1 + (expectedScores pow Rw Rl).2 = 1 := by
  simp only [expectedScores]
  have hs : 0 < pow 10 (Rw / 400) + pow 10 (Rl / 400) := add_pos hw hl
  refine ⟨div_pos hw hs, ?_, div_pos hl hs, ?_, ?_⟩
  · rw [div_lt_one hs]; linarith
  · rw [div_lt_one hs]; linarith
  · rw [← add_div, div_self hs.ne.symm]

/-- Equal ratings give both sides the expected score 1/2. -/
theorem expectedScores_self {F : Type} [LinearOrderedField F]
    (pow : F → F → F) (R : F) (h : 0 < pow 10 (R / 400)) :
    expectedScores pow R R = (1 / 2, 1 / 2) := by
  simp only [expectedScores]
  have h2 : pow 10 (R / 400) / (pow 10 (R / 400) + pow 10 (R / 400)) = 1 / 2 := by
    field_simp
    ring
  rw [h2]

/-- Equal ratings `R` are updated to `R + 16` and `R - 16`. -/
theorem eloUpdate_self {F : Type} [LinearOrderedField F]
    (pow : F → F → F) (R : F) (h : 0 < pow 10 (R / 400)) :
    eloUpdate pow R R = (R + 16, R - 16) := by
  simp only [eloUpdate, expectedScores_self pow R h, K, Nat.cast_ofNat]
  norm_num

/-- Real powers of ten are positive. -/
theorem rpow_ten_pos (x : ℝ) : (0 : ℝ) < (fun b e : ℝ => b ^ e) 10 x :=
  Real.rpow_pos_of_pos (by norm_num) x

/-! ## Rounding to `float64` -/

/-- Rounding to an integer does not go below the floor. -/
theorem floor_le_roundHalfEven (x : ℚ) : ⌊x⌋ ≤ roundHalfEven x := by
  unfold roundHalfEven
  split_ifs <;> omega
/-- Rounding to an integer does not go above the floor plus one. -/
theorem roundHalfEven_le_floor_succ (x : ℚ) : roundHalfEven x ≤ ⌊x⌋ + 1 := by
  unfold roundHalfEven
  split_ifs <;> omega
/-- An integer is not rounded. -/
theorem roundHalfEven_intCast (n : ℤ) : roundHalfEven (n : ℚ) = n := by
  unfold roundHalfEven
  simp
/-- An integer below the argument is below the rounded argument. -/
theorem le_roundHalfEven {n : ℤ} {x : ℚ} (h : (n : ℚ) ≤ x) : n ≤ roundHalfEven x :=
  (Int.le_floor.2 h).trans (floor_le_roundHalfEven x)
/-- An integer above the argument is above the rounded argument. -/
theorem roundHalfEven_le {n : ℤ} {x : ℚ} (h : x ≤ (n : ℚ)) : roundHalfEven x ≤ n := by
  by_cases hx : x = (⌊x⌋ : ℚ)
  · rw [hx, roundHalfEven_intCast]
    rw [hx] at h
    exact_mod_cast h
  · have h1 : (⌊x⌋ : ℚ) < x := lt_of_le_of_ne (Int.floor_le x) (Ne.symm hx)
    have h2 : (⌊x⌋ : ℚ) < n := lt_of_lt_of_le h1 h
    have h3 : ⌊x⌋ < n := by exact_mod_cast h2
    have := roundHalfEven_le_floor_succ x
    omega

/-- The powers of two are positive. -/
theorem two_zpow_pos (e : ℤ) : (0 : ℚ) < 2 ^ e := zpow_pos (by norm_num) e

/-- Zero is not rounded. -/
theorem roundQ_zero : roundQ 0 = 0 := by
  simp [roundQ, roundHalfEven]

/-- A multiple of the unit in the last place below `q` is below its rounding. -/
theorem le_roundQ_of_multiple {q y : ℚ} {N : ℤ} (hy : y = N * 2 ^ ulpExp q) (h : y ≤ q) :
    y ≤ roundQ q := by
  have hp := two_zpow_pos (ulpExp q)
  have h1 : (N : ℚ) ≤ q / 2 ^ ulpExp q := by
    rw [le_div_iff₀ hp, ← hy]; exact h
  have h2 : N ≤ roundHalfEven (q / 2 ^ ulpExp q) := le_roundHalfEven h1
  have h3 : (N : ℚ) ≤ (roundHalfEven (q / 2 ^ ulpExp q) : ℚ) := by exact_mod_cast h2
  rw [hy, roundQ]
  exact mul_le_mul_of_nonneg_right h3 hp.le

/-- A multiple of the unit in the last place above `q` is above its rounding. -/
theorem roundQ_le_of_multiple {q y : ℚ} {N : ℤ} (hy : y = N * 2 ^ ulpExp q) (h : q ≤ y) :
    roundQ q ≤ y := by
  have hp := two_zpow_pos (ulpExp q)
  have h1 : q / 2 ^ ulpExp q ≤ (N : ℚ) := by
    rw [div_le_iff₀ hp, ← hy]; exact h
  have h2 : roundHalfEven (q / 2 ^ ulpExp q) ≤ N := roundHalfEven_le h1
  have h3 : (roundHalfEven (q / 2 ^ ulpExp q) : ℚ) ≤ (N : ℚ) := by exact_mod_cast h2
  rw [hy, roundQ]
  exact mul_le_mul_of_nonneg_right h3 hp.le

/-- A power of two with an exponent that is not below `e` is an integer multiple of
`2 ^ e`. -/
theorem zpow_multiple {e e0 : ℤ} (h : e ≤ e0) (m : ℤ) :
    ∃ N : ℤ, (m : ℚ) * 2 ^ e0 = N * 2 ^ e := by
  refine ⟨m * 2 ^ (e0 - e).toNat, ?_⟩
  have h1 : ((e0 - e).toNat : ℤ) = e0 - e := Int.toNat_of_nonneg (by omega)
  have h2 : (2 : ℚ) ^ e0 = 2 ^ ((e0 - e).toNat : ℤ) * 2 ^ e := by
    rw [← zpow_add₀ (by norm_num : (2 : ℚ) ≠ 0), h1]
    congr 1
    ring
  rw [h2, zpow_natCast]
  push_cast
  ring

/-- With respect to the grid on which `q` is rounded, a finite binary64 number is on the
grid or is smaller in absolute value than the power of two `2 ^ k ≤ |q|`, which is on
the grid. -/
theorem grid_or_small {q y : ℚ} (hy : isBinary53 y) :
    (∃ N : ℤ, y = N * 2 ^ ulpExp q)
      ∨ (|y| < 2 ^ Int.log 2 |q|
          ∧ (2 : ℚ) ^ Int.log 2 |q| = ((2 ^ 52 : ℤ) : ℚ) * 2 ^ ulpExp q) := by
  obtain ⟨m, e0, hm, he0, rfl⟩ := hy
  by_cases h : ulpExp q ≤ e0
  · exact Or.inl (zpow_multiple h m)
  · right
    push_neg at h
    have hk : ulpExp q = Int.log 2 |q| - 52 := by
      unfold ulpExp at h ⊢
      rcases max_cases (Int.log 2 |q| - 52) (-1074) with ⟨h1, -⟩ | ⟨h1, -⟩
      · exact h1
      · rw [h1] at h; omega
    constructor
    · have h1 : |(m : ℚ) * 2 ^ e0| < 2 ^ (53 + e0) := by
        rw [abs_mul, abs_of_pos (two_zpow_pos e0), zpow_add₀ (by norm_num : (2 : ℚ) ≠ 0)]
        have hm' : |(m : ℚ)| < 2 ^ (53 : ℤ) := by
          have h53 : (2 : ℚ) ^ (53 : ℤ) = ((2 ^ 53 : ℤ) : ℚ) := by norm_num
          rw [h53, ← Int.cast_abs]
          exact_mod_cast hm
        exact mul_lt_mul_of_pos_right hm' (two_zpow_pos e0)
      have h2 : (2 : ℚ) ^ (53 + e0) ≤ 2 ^ Int.log 2 |q| :=
        zpow_le_zpow_right₀ (by norm_num) (by omega)
      exact lt_of_lt_of_le h1 h2
    · rw [hk]
      have : (((2 : ℤ) ^ 52 : ℤ) : ℚ) = (2 : ℚ) ^ (52 : ℤ) := by norm_num
      rw [this, ← zpow_add₀ (by norm_num : (2 : ℚ) ≠ 0)]
      congr 1
      ring

/-- The power of two that opens the binade of `q` is at most `|q|`. -/
theorem two_zpow_log_le_abs {q : ℚ} (hq : q ≠ 0) : (2 : ℚ) ^ Int.log 2 |q| ≤ |q| := by
  have := Int.zpow_log_le_self (b := 2) (r := |q|) (by norm_num) (abs_pos.2 hq)
  simpa using this

/-- A finite binary64 number below `q` is below the rounding of `q`. -/
theorem le_roundQ {q y : ℚ} (hy : isBinary53 y) (h : y ≤ q) : y ≤ roundQ q := by
  by_cases hq : q = 0
  · subst hq; rw [roundQ_zero]; exact h
  rcases grid_or_small (q := q) hy with ⟨N, hN⟩ | ⟨hsmall, hgrid⟩
  · exact le_roundQ_of_multiple hN h
  · have hk := two_zpow_log_le_abs hq
    rcases lt_or_gt_of_ne hq with hneg | hpos
    · have hk' : (2 : ℚ) ^ Int.log 2 |q| ≤ -q := hk.trans (abs_of_neg hneg).le
      have := (abs_lt.1 hsmall).1
      linarith
    · have hk' : (2 : ℚ) ^ Int.log 2 |q| ≤ q := hk.trans (abs_of_pos hpos).le
      have h1 : (2 : ℚ) ^ Int.log 2 |q| ≤ roundQ q := le_roundQ_of_multiple hgrid hk'
      have := (abs_lt.1 hsmall).2
      linarith

/-- A finite binary64 number above `q` is above the rounding of `q`. -/
theorem roundQ_le {q y : ℚ} (hy : isBinary53 y) (h : q ≤ y) : roundQ q ≤ y := by
  by_cases hq : q = 0
  · subst hq; rw [roundQ_zero]; exact h
  rcases grid_or_small (q := q) hy with ⟨N, hN⟩ | ⟨hsmall, hgrid⟩
  · exact roundQ_le_of_multiple hN h
  · have hk := two_zpow_log_le_abs hq
    rcases lt_or_gt_of_ne hq with hneg | hpos
    · have hk' : (2 : ℚ) ^ Int.log 2 |q| ≤ -q := hk.trans (abs_of_neg hneg).le
      have hgrid' : -(2 : ℚ) ^ Int.log 2 |q| = ((-(2 ^ 52) : ℤ) : ℚ) * 2 ^ ulpExp q := by
        rw [hgrid]; push_cast; ring
      have h1 : roundQ q ≤ -(2 : ℚ) ^ Int.log 2 |q| :=
        roundQ_le_of_multiple hgrid' (by linarith)
      have := (abs_lt.1 hsmall).1
      linarith
    · have hk' : (2 : ℚ) ^ Int.log 2 |q| ≤ q := hk.trans (abs_of_pos hpos).le
      have := (abs_lt.1 hsmall).2
      linarith

/-- Rounding leaves a finite binary64 number as it is. -/
theorem roundQ_of_isBinary53 {q : ℚ} (hq : isBinary53 q) : roundQ q = q :=
  le_antisymm (roundQ_le hq le_rfl) (le_roundQ hq le_rfl)

/-- The bound on the significand is below the bound on the range. -/
theorem two_pow_53_lt : (2 : ℚ) ^ 53 < 2 ^ 1024 :=
  pow_lt_pow_right₀ (by norm_num) (by norm_num)

/-- An integer below `2 ^ 53` in absolute value has 53 significant bits. -/
theorem isBinary53_intCast (n : ℤ) (h : |n| < 2 ^ 53) : isBinary53 (n : ℚ) :=
  ⟨n, 0, h, by norm_num, by simp⟩

/-- An integer below `2 ^ 53` in absolute value is a binary64 number. -/
theorem isF64_intCast (n : ℤ) (h : |n| < 2 ^ 53) : isF64 (n : ℚ) := by
  refine ⟨isBinary53_intCast n h, ?_⟩
  have h1 : ((|n| : ℤ) : ℚ) < ((2 ^ 53 : ℤ) : ℚ) := by exact_mod_cast h
  rw [Int.cast_abs] at h1
  refine lt_trans h1 ?_
  have : ((2 ^ 53 : ℤ) : ℚ) = (2 : ℚ) ^ 53 := by norm_num
  rw [this]
  exact two_pow_53_lt

/-- A natural number below `2 ^ 53` is a binary64 number. -/
theorem isF64_natCast (n : ℕ) (h : n < 2 ^ 53) : isF64 (n : ℚ) := by
  have := isF64_intCast (n : ℤ) (by rw [abs_of_nonneg (by positivity)]; exact_mod_cast h)
  simpa using this

/-- A numeral below `2 ^ 53` is a binary64 number. -/
theorem isF64_ofNat (n : ℕ) [n.AtLeastTwo] (h : n < 2 ^ 53) :
    isF64 (OfNat.ofNat n : ℚ) := by
  have := isF64_natCast n h
  simpa using this

/-- The number 0 is a binary64 number. -/
theorem isF64_zero : isF64 0 := by simpa using isF64_natCast 0 (by norm_num)

/-- The number 1 is a binary64 number. -/
theorem isF64_one : isF64 1 := by simpa using isF64_natCast 1 (by norm_num)

/-- The number 1/2 is a binary64 number. -/
theorem isF64_half : isF64 (1 / 2) := by
  refine ⟨⟨1, -1, by norm_num, by norm_num, by norm_num⟩, ?_⟩
  rw [abs_of_pos (by norm_num)]
  exact lt_trans (by norm_num) two_pow_53_lt

/-- Doubling keeps the 53 significant bits. -/
theorem isBinary53_two_mul {q : ℚ} (h : isBinary53 q) : isBinary53 (2 * q) := by
  obtain ⟨m, e, hm, he, rfl⟩ := h
  refine ⟨m, e + 1, hm, by omega, ?_⟩
  rw [zpow_add_one₀ (by norm_num : (2 : ℚ) ≠ 0)]
  ring

/-- Negation keeps the 53 significant bits. -/
theorem isBinary53_neg {q : ℚ} (h : isBinary53 q) : isBinary53 (-q) := by
  obtain ⟨m, e, hm, he, rfl⟩ := h
  exact ⟨-m, e, by rwa [abs_neg], he, by push_cast; ring⟩

/-- The bound `2 ^ 1024` has 53 significant bits. -/
theorem isBinary53_two_pow_1024 : isBinary53 (2 ^ 1024) :=
  ⟨1, 1024, by norm_num, by norm_num, by norm_num⟩

/-- Rounding a value of at least `2 ^ 1024` overflows. -/
theorem overflow_of_le {q : ℚ} (h : 2 ^ 1024 ≤ q) : 2 ^ 1024 ≤ |roundQ q| :=
  (le_roundQ isBinary53_two_pow_1024 h).trans (le_abs_self _)

/-- Rounding keeps a value that is not negative so. -/
theorem roundQ_nonneg {q : ℚ} (h : 0 ≤ q) : 0 ≤ roundQ q :=
  le_roundQ isF64_zero.1 h

/-- Rounding keeps a value that is not positive so. -/
theorem roundQ_nonpos {q : ℚ} (h : q ≤ 0) : roundQ q ≤ 0 :=
  roundQ_le isF64_zero.1 h

namespace F64

/-- An exact result that is a finite binary64 number is not rounded. -/
theorem ofRat_of_isF64 {q : ℚ} (h : isF64 q) : ofRat q = fin q := by
  have hr := roundQ_of_isBinary53 h.1
  unfold ofRat
  rw [hr, if_neg (not_le.2 h.2), if_neg]
  rintro ⟨h0, hneg⟩
  rw [h0] at hneg
  exact lt_irrefl _ hneg

/-- The conversion of a natural number below `2 ^ 53` to `float64` is exact. -/
theorem natCast_eq (n : ℕ) (h : n < 2 ^ 53) : ((n : ℕ) : F64) = fin n :=
  ofRat_of_isF64 (isF64_natCast n h)

/-- A numeral below `2 ^ 53` is the same number in `float64`. -/
theorem ofNat_eq (n : ℕ) [n.AtLeastTwo] (h : n < 2 ^ 53) :
    (OfNat.ofNat n : F64) = fin (OfNat.ofNat n) := by
  have := natCast_eq n h
  simpa using this

/-- The constant 1 in `float64`. -/
theorem one_eq : (1 : F64) = fin 1 := rfl

/-- The sum of two finite numbers is the exact sum, rounded. -/
theorem add_fin (a b : ℚ) : fin a + fin b = ofRat (a + b) := rfl

/-- The difference of two finite numbers is the exact difference, rounded. -/
theorem sub_fin (a b : ℚ) (hb : b ≠ 0) : fin a - fin b = ofRat (a - b) := by
  show add (fin a) (neg (fin b)) = _
  simp only [neg, hb, if_false, add]
  rw [sub_eq_add_neg]

/-- Subtracting positive zero from a finite number changes nothing. -/
theorem sub_fin_zero (a : ℚ) : fin a - fin 0 = fin a := by
  show add (fin a) (neg (fin 0)) = _
  simp [neg, add]

/-- The product of two finite numbers other than zero is the exact product, rounded. -/
theorem mul_fin (a b : ℚ) (ha : a ≠ 0) (hb : b ≠ 0) : fin a * fin b = ofRat (a * b) := by
  show mul (fin a) (fin b) = _
  simp [mul, isZero, ha, hb, toRat]

/-- The quotient of two finite numbers other than zero is the exact quotient, rounded. -/
theorem div_fin (a b : ℚ) (ha : a ≠ 0) (hb : b ≠ 0) : fin a / fin b = ofRat (a / b) := by
  show div (fin a) (fin b) = _
  simp [div, isZero, ha, hb, toRat]

/-- A finite binary64 number below the exact result is below the rounded result. -/
theorem le_ofRat {q y : ℚ} (hy : isF64 y) (h : y ≤ q) : le (fin y) (ofRat q) = true := by
  have h1 := le_roundQ hy.1 h
  unfold ofRat
  split_ifs with ho hz
  · have hq : ¬ q < 0 := by
      intro hq
      have h2 := roundQ_nonpos hq.le
      rw [abs_of_nonpos h2] at ho
      have := (abs_lt.1 hy.2).1
      linarith
    simp [hq, le]
  · simp only [le, toRat, decide_eq_true_eq]
    rw [← hz.1]; exact h1
  · simp only [le, toRat, decide_eq_true_eq]
    exact h1

/-- A finite binary64 number above the exact result is above the rounded result. -/
theorem ofRat_le {q y : ℚ} (hy : isF64 y) (h : q ≤ y) : le (ofRat q) (fin y) = true := by
  have h1 := roundQ_le hy.1 h
  unfold ofRat
  split_ifs with ho hz
  · have hq : q < 0 := by
      by_contra hq
      have h2 := roundQ_nonneg (not_lt.1 hq)
      rw [abs_of_nonneg h2] at ho
      have := (abs_lt.1 hy.2).2
      linarith
    simp [hq, le]
  · simp only [le, toRat, decide_eq_true_eq]
    have := hz.2
    linarith
  · simp only [le, toRat, decide_eq_true_eq]
    exact h1

end F64

/-! ## Bounds on the rounded operations -/

namespace F64

/-- An exact result between two nonnegative finite binary64 numbers is rounded to a
finite number between them. -/
theorem ofRat_mem_Icc {q lo hi : ℚ} (hlo : isF64 lo) (hhi : isF64 hi) (h0 : 0 ≤ lo)
    (h1 : lo ≤ q) (h2 : q ≤ hi) : ∃ r, ofRat q = fin r ∧ lo ≤ r ∧ r ≤ hi := by
  have hl := le_roundQ hlo.1 h1
  have hh := roundQ_le hhi.1 h2
  refine ⟨roundQ q, ?_, hl, hh⟩
  unfold ofRat
  rw [if_neg, if_neg]
  · rintro ⟨-, hneg⟩
    linarith
  · rw [not_le, abs_of_nonneg (h0.trans hl)]
    exact lt_of_le_of_lt hh (lt_of_le_of_lt (le_abs_self hi) hhi.2)

/-- The sum of two positive finite numbers: positive infinity, or a finite number not
below either of them. -/
theorem add_pos_cases {a b : ℚ} (ha : isF64 a) (hb : isF64 b) (ha0 : 0 < a) (hb0 : 0 < b) :
    fin a + fin b = inf false
      ∨ ∃ s, fin a + fin b = fin s ∧ a ≤ s ∧ b ≤ s ∧ (a ≤ b → 2 * a ≤ s)
          ∧ (b ≤ a → 2 * b ≤ s) := by
  rw [add_fin]
  have hq : ¬ (a + b < 0) := by linarith
  unfold ofRat
  split_ifs with ho hz
  · left; simp [hq]
  · exact absurd hz.2 hq
  · right
    refine ⟨_, rfl, le_roundQ ha.1 (by linarith), le_roundQ hb.1 (by linarith), ?_, ?_⟩
    · intro hab
      exact le_roundQ (isBinary53_two_mul ha.1) (by linarith)
    · intro hba
      exact le_roundQ (isBinary53_two_mul hb.1) (by linarith)

/-- A positive finite number divided by positive infinity or by a finite number not
below it: a finite number between 0 and 1, at most 1/2 when the divisor is infinite or
at least twice the dividend. -/
theorem div_pos_cases {r : ℚ} {s : F64} (hr0 : 0 < r)
    (hs : s = inf false ∨ ∃ σ, s = fin σ ∧ r ≤ σ) :
    ∃ ε, fin r / s = fin ε ∧ 0 ≤ ε ∧ ε ≤ 1
      ∧ ((s = inf false ∨ ∃ σ, s = fin σ ∧ 2 * r ≤ σ) → ε ≤ 1 / 2) := by
  rcases hs with rfl | ⟨σ, rfl, hσ⟩
  · refine ⟨0, ?_, le_rfl, by norm_num, fun _ => by norm_num⟩
    show div (fin r) (inf false) = _
    simp [div, zero, signBit, not_lt.2 hr0.le]
  · have hσ0 : 0 < σ := lt_of_lt_of_le hr0 hσ
    rw [div_fin r σ hr0.ne' hσ0.ne']
    have hq0 : 0 ≤ r / σ := (div_pos hr0 hσ0).le
    have hq1 : r / σ ≤ 1 := (div_le_one hσ0).2 hσ
    obtain ⟨ε, hε, h0, h1⟩ := ofRat_mem_Icc isF64_zero isF64_one le_rfl hq0 hq1
    refine ⟨ε, hε, h0, h1, ?_⟩
    rintro (h | ⟨σ', h, h2⟩)
    · cases h
    · cases h
      have hq2 : r / σ ≤ 1 / 2 := by
        rw [div_le_iff₀ hσ0]; linarith
      obtain ⟨ε', hε', -, h1'⟩ := ofRat_mem_Icc isF64_zero isF64_half le_rfl hq0 hq2
      rw [hε] at hε'
      cases hε'
      exact h1'

/-- The difference `1 - e` for a finite `e` between 0 and 1: a finite number between 0
and 1, at least 1/2 when `e` is at most 1/2. -/
theorem one_sub_cases {ε : ℚ} (h0 : 0 ≤ ε) (h1 : ε ≤ 1) :
    ∃ δ, (1 : F64) - fin ε = fin δ ∧ 0 ≤ δ ∧ δ ≤ 1 ∧ (ε ≤ 1 / 2 → 1 / 2 ≤ δ) := by
  rw [one_eq]
  by_cases hε : ε = 0
  · subst hε
    exact ⟨1, sub_fin_zero 1, by norm_num, le_rfl, fun _ => by norm_num⟩
  · rw [sub_fin 1 ε hε]
    obtain ⟨δ, hδ, hd0, hd1⟩ :=
      ofRat_mem_Icc (q := 1 - ε) isF64_zero isF64_one le_rfl (by linarith) (by linarith)
    refine ⟨δ, hδ, hd0, hd1, fun h => ?_⟩
    obtain ⟨δ', hδ', hd0', -⟩ :=
      ofRat_mem_Icc (q := 1 - ε) isF64_half isF64_one (by norm_num) (by linarith) (by linarith)
    rw [hδ] at hδ'
    cases hδ'
    exact hd0'

/-- The number 16 is a binary64 number. -/
theorem isF64_16 : isF64 16 := isF64_ofNat 16 (by norm_num)

/-- The number 32 is a binary64 number. -/
theorem isF64_32 : isF64 32 := isF64_ofNat 32 (by norm_num)

/-- The constant `K` converted to `float64`. -/
theorem K_eq : ((K : ℕ) : F64) = fin 32 := by
  have := natCast_eq 32 (by norm_num)
  simpa [K] using this

/-- The product `K * d` for a finite `d` between 0 and 1: a finite number between 0
and 32, at least 16 when `d` is at least 1/2. -/
theorem K_mul_cases {δ : ℚ} (h0 : 0 ≤ δ) (h1 : δ ≤ 1) :
    ∃ γ, ((K : ℕ) : F64) * fin δ = fin γ ∧ 0 ≤ γ ∧ γ ≤ 32 ∧ (1 / 2 ≤ δ → 16 ≤ γ) := by
  rw [K_eq]
  by_cases hδ : δ = 0
  · subst hδ
    refine ⟨0, ?_, le_rfl, by norm_num, fun h => by norm_num at h⟩
    show mul (fin 32) (fin 0) = _
    simp [mul, isZero, zero, signBit]
  · rw [mul_fin 32 δ (by norm_num) hδ]
    obtain ⟨γ, hγ, hg0, hg1⟩ :=
      ofRat_mem_Icc (q := 32 * δ) isF64_zero isF64_32 le_rfl (by linarith) (by linarith)
    refine ⟨γ, hγ, hg0, hg1, fun h => ?_⟩
    obtain ⟨γ', hγ', hg0', -⟩ :=
      ofRat_mem_Icc (q := 32 * δ) isF64_16 isF64_32 (by norm_num) (by linarith) (by linarith)
    rw [hγ] at hγ'
    cases hγ'
    exact hg0'

/-- From `a < y` and `y <= v` follows `a < v`. -/
theorem lt_of_lt_of_le_fin {a y : ℚ} {v : F64} (h : a < y) (hv : le (fin y) v = true) :
    lt (fin a) v = true := by
  cases v with
  | nan => simp [le] at hv
  | inf neg =>
    cases neg
    · simp [lt]
    · simp [le] at hv
  | negZero =>
    simp only [le, toRat, decide_eq_true_eq] at hv
    simp only [lt, toRat, decide_eq_true_eq]
    linarith
  | fin r =>
    simp only [le, toRat, decide_eq_true_eq] at hv
    simp only [lt, toRat, decide_eq_true_eq]
    linarith

/-- Adding a nonnegative finite number does not lower a finite number, and adding at
least 16 raises it when it is below `2 ^ 52` in absolute value. -/
theorem le_add_fin {a γ : ℚ} (ha : isF64 a) (hγ : 0 ≤ γ) :
    le (fin a) (fin a + fin γ) = true
      ∧ (16 ≤ γ → |a| < 2 ^ 52 → lt (fin a) (fin a + fin γ) = true) := by
  rw [add_fin]
  refine ⟨le_ofRat ha (by linarith), fun h16 hsmall => ?_⟩
  have hy : isF64 ((⌊a⌋ + 1 : ℤ) : ℚ) := by
    apply isF64_intCast
    have h1 : (⌊a⌋ : ℚ) ≤ a := Int.floor_le a
    have h2 : a < ⌊a⌋ + 1 := Int.lt_floor_add_one a
    have h3 := abs_lt.1 hsmall
    have h4 : ((-(2 ^ 52) - 1 : ℤ) : ℚ) < (⌊a⌋ : ℚ) := by
      push_cast; linarith
    have h5 : (⌊a⌋ : ℚ) < ((2 ^ 52 : ℤ) : ℚ) := by
      push_cast; linarith
    have h6 : -(2 ^ 52) - 1 < ⌊a⌋ := by exact_mod_cast h4
    have h7 : ⌊a⌋ < 2 ^ 52 := by exact_mod_cast h5
    rw [abs_lt]
    constructor <;> omega
  have hlt : a < ((⌊a⌋ + 1 : ℤ) : ℚ) := by
    push_cast; exact Int.lt_floor_add_one a
  have hle : ((⌊a⌋ + 1 : ℤ) : ℚ) ≤ a + γ := by
    push_cast
    have := Int.floor_le a
    linarith
  exact lt_of_lt_of_le_fin hlt (le_ofRat hy hle)

/-- Subtracting a nonnegative finite number does not raise a finite number. -/
theorem sub_fin_le {b γ : ℚ} (hb : isF64 b) (hγ : 0 ≤ γ) :
    le (fin b - fin γ) (fin b) = true := by
  by_cases h : γ = 0
  · subst h
    rw [sub_fin_zero]
    simp [le, toRat]
  · rw [sub_fin b γ h]
    exact ofRat_le hb (by linarith)

end F64

/-! ## The Elo update in `float64` -/

namespace F64

/-- The expected scores in `float64` when both powers are positive finite numbers: each
is a finite number between 0 and 1, and the score of the side with the smaller power is
at most 1/2. -/
theorem expectedScores_cases (pow : F64 → F64 → F64) (Rw Rl : F64) (rW rL : ℚ)
    (hW : pow 10 (Rw / 400) = fin rW) (hL : pow 10 (Rl / 400) = fin rL)
    (hrW : isF64 rW) (hrL : isF64 rL) (hW0 : 0 < rW) (hL0 : 0 < rL) :
    ∃ eW eL : ℚ, expectedScores pow Rw Rl = (fin eW, fin eL)
      ∧ 0 ≤ eW ∧ eW ≤ 1 ∧ 0 ≤ eL ∧ eL ≤ 1 ∧ (rW ≤ rL → eW ≤ 1 / 2) := by
  simp only [expectedScores, hW, hL]
  have hsum := add_pos_cases hrW hrL hW0 hL0
  have hsW : fin rW + fin rL = inf false ∨ ∃ σ, fin rW + fin rL = fin σ ∧ rW ≤ σ := by
    rcases hsum with h | ⟨s, h, h1, -, -, -⟩
    · exact Or.inl h
    · exact Or.inr ⟨s, h, h1⟩
  have hsL : fin rW + fin rL = inf false ∨ ∃ σ, fin rW + fin rL = fin σ ∧ rL ≤ σ := by
    rcases hsum with h | ⟨s, h, -, h1, -, -⟩
    · exact Or.inl h
    · exact Or.inr ⟨s, h, h1⟩
  obtain ⟨eW, hW', hW0', hW1', hhalf⟩ := div_pos_cases hW0 hsW
  obtain ⟨eL, hL', hL0', hL1', -⟩ := div_pos_cases hL0 hsL
  refine ⟨eW, eL, by rw [hW', hL'], hW0', hW1', hL0', hL1', fun hle => hhalf ?_⟩
  rcases hsum with h | ⟨s, h, -, -, h2, -⟩
  · exact Or.inl h
  · exact Or.inr ⟨s, h, h2 hle⟩

/-- Equal ratings in `float64`: when the power is a positive finite number that can be
doubled without overflow, both expected scores are exactly 1/2. -/
theorem expectedScores_equal (pow : F64 → F64 → F64) (R : F64) (x : ℚ)
    (hx : pow 10 (R / 400) = fin x) (hxf : isF64 x) (hx0 : 0 < x) (hx2 : 2 * x < 2 ^ 1024) :
    expectedScores pow R R = (fin (1 / 2), fin (1 / 2)) := by
  simp only [expectedScores, hx]
  have h2 : isF64 (x + x) := by
    refine ⟨by rw [← two_mul]; exact isBinary53_two_mul hxf.1, ?_⟩
    rw [abs_of_pos (by linarith)]
    linarith
  rw [add_fin, ofRat_of_isF64 h2, div_fin x (x + x) hx0.ne' (by linarith)]
  have h3 : x / (x + x) = 1 / 2 := by
    field_simp
    ring
  rw [h3, ofRat_of_isF64 isF64_half]

/-- Equal ratings in `float64`: under the same condition the new ratings are `R + 16`
and `R - 16`, each rounded. -/
theorem eloUpdate_equal (pow : F64 → F64 → F64) (R : F64) (x : ℚ)
    (hx : pow 10 (R / 400) = fin x) (hxf : isF64 x) (hx0 : 0 < x) (hx2 : 2 * x < 2 ^ 1024) :
    eloUpdate pow R R = (R + 16, R - 16) := by
  simp only [eloUpdate, expectedScores_equal pow R x hx hxf hx0 hx2, K_eq, one_eq]
  rw [sub_fin 1 (1 / 2) (by norm_num), mul_fin 32 (1 / 2) (by norm_num) (by norm_num)]
  have h1 : (1 : ℚ) - 1 / 2 = 1 / 2 := by norm_num
  have h2 : (32 : ℚ) * (1 / 2) = 16 := by norm_num
  rw [h1, ofRat_of_isF64 isF64_half, mul_fin 32 (1 / 2) (by norm_num) (by norm_num), h2,
    ofRat_of_isF64 isF64_16, ofNat_eq 16 (by norm_num)]

end F64

/-! ## Concrete evaluations -/

/-- The integer within less than one half of `x` is its rounding. -/
theorem roundHalfEven_eq_of_close {n : ℤ} {x : ℚ} (h : |x - n| < 1 / 2) :
    roundHalfEven x = n := by
  rw [abs_lt] at h
  unfold roundHalfEven
  by_cases hn : (n : ℚ) ≤ x
  · have hf : ⌊x⌋ = n := by
      rw [Int.floor_eq_iff]
      constructor
      · exact hn
      · linarith [h.2]
    rw [hf, if_pos (by linarith [h.2])]
  · have hf : ⌊x⌋ = n - 1 := by
      rw [Int.floor_eq_iff]
      push_cast
      constructor
      · linarith [h.1]
      · push_neg at hn; linarith
    rw [hf]
    push_cast
    rw [if_neg (by linarith [h.1]), if_pos (by linarith [h.1])]
    ring

/-- Rounding computed from the binade of `q` and the nearest multiple of the unit in the
last place. -/
theorem roundQ_eq {q : ℚ} (k e n : ℤ) (hk1 : (2 : ℚ) ^ k ≤ |q|) (hk2 : |q| < 2 ^ (k + 1))
    (he : e = max (k - 52) (-1074)) (hn : |q / 2 ^ e - n| < 1 / 2) :
    roundQ q = n * 2 ^ e := by
  have hpos : 0 < |q| := lt_of_lt_of_le (two_zpow_pos k) hk1
  have hlog : Int.log 2 |q| = k := by
    apply le_antisymm
    · have := (Int.lt_zpow_iff_log_lt (b := 2) (by norm_num) hpos).1 (by simpa using hk2)
      omega
    · exact (Int.zpow_le_iff_le_log (b := 2) (by norm_num) hpos).1 (by simpa using hk1)
  have hu : ulpExp q = e := by rw [ulpExp, hlog, he]
  rw [roundQ, hu, roundHalfEven_eq_of_close hn]

namespace F64

/-- A rating divided by 400 when the exact quotient is a binary64 number. -/
theorem fin_div_400 (a c : ℚ) (ha : a ≠ 0) (hc : isF64 c) (h : a / 400 = c) :
    fin a / (400 : F64) = fin c := by
  rw [ofNat_eq 400 (by norm_num), div_fin a 400 ha (by norm_num), h, ofRat_of_isF64 hc]

/-- The power that `samplePow` gives for the rating 0. -/
theorem samplePow_0 : samplePow 10 (fin 0 / 400) = fin 1 := by
  have h : fin 0 / (400 : F64) = fin 0 := by
    rw [ofNat_eq 400 (by norm_num)]
    show div (fin 0) (fin 400) = _
    simp [div, isZero, zero, signBit]
  rw [h, ofNat_eq 10 (by norm_num)]
  simp [samplePow, tablePow]

/-- The power that `samplePow` gives for the rating 1600. -/
theorem samplePow_4 : samplePow 10 (fin 1600 / 400) = fin 10000 := by
  rw [fin_div_400 1600 4 (by norm_num) (isF64_ofNat 4 (by norm_num)) (by norm_num),
    ofNat_eq 10 (by norm_num)]
  simp [samplePow, tablePow]

/-- The power that `samplePow` gives for the rating 8000. -/
theorem samplePow_20 : samplePow 10 (fin 8000 / 400) = fin (10 ^ 20) := by
  rw [fin_div_400 8000 20 (by norm_num) (isF64_ofNat 20 (by norm_num)) (by norm_num),
    ofNat_eq 10 (by norm_num)]
  simp [samplePow, tablePow]

/-- The power that `samplePow` gives for the rating 124000: positive infinity. -/
theorem samplePow_310 : samplePow 10 (fin 124000 / 400) = inf false := by
  rw [fin_div_400 124000 310 (by norm_num) (isF64_ofNat 310 (by norm_num)) (by norm_num),
    ofNat_eq 10 (by norm_num)]
  simp [samplePow, tablePow]

/-- The number 10000 is a binary64 number. -/
theorem isF64_10000 : isF64 10000 := isF64_ofNat 10000 (by norm_num)

/-- Adding a numeral to a finite number when the exact sum is a binary64 number. -/
theorem add_ofNat (a c : ℚ) (n : ℕ) [n.AtLeastTwo] (hn : n < 2 ^ 53) (hc : isF64 c)
    (h : a + (OfNat.ofNat n : ℚ) = c) : fin a + (OfNat.ofNat n : F64) = fin c := by
  rw [ofNat_eq n hn, add_fin, h, ofRat_of_isF64 hc]

/-- Subtracting a numeral from a finite number when the exact difference is a
binary64 number. -/
theorem sub_ofNat (a c : ℚ) (n : ℕ) [n.AtLeastTwo] (hn : n < 2 ^ 53) (hc : isF64 c)
    (h : a - (OfNat.ofNat n : ℚ) = c) : fin a - (OfNat.ofNat n : F64) = fin c := by
  rw [ofNat_eq n hn, sub_fin a _ (OfNat.ofNat_ne_zero n), h, ofRat_of_isF64 hc]

/-- A sum with NaN is NaN. -/
theorem add_nan (x : F64) : x + nan = nan := by
  cases x <;> rfl

/-- A difference with NaN is NaN. -/
theorem sub_nan (x : F64) : x - nan = nan := by
  cases x <;> rfl

/-- A product with NaN is NaN. -/
theorem mul_nan (x : F64) : x * nan = nan := by
  cases x <;> rfl

/-- The update of two ratings 1600 with `samplePow`. -/
theorem eloUpdate_1600 : eloUpdate samplePow (fin 1600) (fin 1600) = (fin 1616, fin 1584) := by
  rw [eloUpdate_equal samplePow (fin 1600) 10000 samplePow_4 isF64_10000 (by norm_num)
    (lt_trans (by norm_num) two_pow_53_lt)]
  rw [add_ofNat 1600 1616 16 (by norm_num) (isF64_ofNat 1616 (by norm_num)) (by norm_num),
    sub_ofNat 1600 1584 16 (by norm_num) (isF64_ofNat 1584 (by norm_num)) (by norm_num)]

/-- The update of two ratings 124000 with `samplePow`: the powers are infinite and both
new ratings are NaN. -/
theorem eloUpdate_124000 :
    expectedScores samplePow (fin 124000) (fin 124000) = (nan, nan)
      ∧ eloUpdate samplePow (fin 124000) (fin 124000) = (nan, nan) := by
  have h : expectedScores samplePow (fin 124000) (fin 124000) = (nan, nan) := by
    simp only [expectedScores, samplePow_310]
    rfl
  refine ⟨h, ?_⟩
  simp only [eloUpdate, h, sub_nan, mul_nan, add_nan]

end F64

namespace F64

/-- The rounded result when the rounding is known and finite. -/
theorem ofRat_eq_fin {q r : ℚ} (h : roundQ q = r) (hr : |r| < 2 ^ 1024) (hq : 0 ≤ q) :
    ofRat q = fin r := by
  unfold ofRat
  rw [h, if_neg (not_le.2 hr), if_neg]
  rintro ⟨-, hneg⟩
  linarith

/-- The number `10 ^ 20` is a binary64 number. -/
theorem isF64_1e20 : isF64 (10 ^ 20) := by
  refine ⟨⟨5 ^ 20, 20, by norm_num, by norm_num, by norm_num⟩, ?_⟩
  rw [abs_of_pos (by norm_num : (0 : ℚ) < 10 ^ 20)]
  exact lt_of_lt_of_le (by norm_num : (10 : ℚ) ^ 20 < 2 ^ 67)
    (pow_le_pow_right₀ (by norm_num) (by norm_num))

/-- The sum `1 + 1e20` is rounded to `1e20`. -/
theorem one_add_1e20 : fin 1 + fin (10 ^ 20) = fin (10 ^ 20) := by
  rw [add_fin]
  have h : roundQ (1 + 10 ^ 20) = 10 ^ 20 := by
    rw [roundQ_eq 66 14 6103515625000000 (by norm_num [abs_of_pos]) (by norm_num [abs_of_pos])
      (by norm_num) (by norm_num [abs_lt])]
    norm_num
  exact ofRat_eq_fin h isF64_1e20.2 (by norm_num)

/-- The quotient `1 / 1e20` rounded. -/
theorem one_div_1e20 :
    fin 1 / fin (10 ^ 20) = fin (6646139978924579 * 2 ^ (-119 : ℤ)) := by
  rw [div_fin 1 _ (by norm_num) (by norm_num)]
  have h : roundQ (1 / 10 ^ 20) = 6646139978924579 * 2 ^ (-119 : ℤ) := by
    rw [roundQ_eq (-67) (-119) 6646139978924579 (by norm_num [abs_of_pos])
      (by norm_num [abs_of_pos]) (by norm_num) (by norm_num [abs_lt])]
    norm_num
  refine ofRat_eq_fin h ?_ (by norm_num)
  rw [abs_of_pos (by norm_num : (0 : ℚ) < 6646139978924579 * 2 ^ (-119 : ℤ))]
  exact lt_trans (by norm_num) two_pow_53_lt

/-- The difference of 1 and the rounded `1 / 1e20` is rounded to 1. -/
theorem one_sub_tiny : (1 : F64) - fin (6646139978924579 * 2 ^ (-119 : ℤ)) = fin 1 := by
  rw [one_eq, sub_fin 1 _ (by norm_num)]
  have h : roundQ (1 - 6646139978924579 * 2 ^ (-119 : ℤ)) = 1 := by
    rw [roundQ_eq (-1) (-53) 9007199254740992 (by norm_num [abs_of_pos])
      (by norm_num [abs_of_pos]) (by norm_num) (by norm_num [abs_lt])]
    norm_num
  exact ofRat_eq_fin h isF64_one.2 (by norm_num)

/-- The update of the ratings 0 and 8000 with `samplePow`: the winner gets exactly 32,
the loser exactly 7968. -/
theorem eloUpdate_uneven : eloUpdate samplePow (fin 0) (fin 8000) = (fin 32, fin 7968) := by
  simp only [eloUpdate, expectedScores, samplePow_0, samplePow_20, one_add_1e20, one_div_1e20,
    one_sub_tiny, K_eq]
  have h1 : fin (10 ^ 20) / fin (10 ^ 20) = fin 1 := by
    rw [div_fin _ _ (by norm_num) (by norm_num), div_self (by norm_num),
      ofRat_of_isF64 isF64_one]
  have h2 : fin 32 * fin 1 = fin 32 := by
    rw [mul_fin _ _ (by norm_num) (by norm_num), mul_one, ofRat_of_isF64 isF64_32]
  have h3 : fin 0 + fin 32 = fin 32 := by
    rw [add_fin, zero_add, ofRat_of_isF64 isF64_32]
  have h4 : fin 8000 - fin 32 = fin 7968 := by
    rw [sub_fin _ _ (by norm_num)]
    have : (8000 : ℚ) - 32 = 7968 := by norm_num
    rw [this, ofRat_of_isF64 (isF64_ofNat 7968 (by norm_num))]
  rw [h1, h2, h3, h4]

/-- The update of the ratings 1600 and 124000 with `samplePow`: the power of the loser
is infinite, the winner gets 1632 and the loser NaN. -/
theorem eloUpdate_1600_124000 :
    eloUpdate samplePow (fin 1600) (fin 124000) = (fin 1632, nan) := by
  simp only [eloUpdate, expectedScores, samplePow_4, samplePow_310, K_eq]
  have h1 : fin 10000 + inf false = inf false := rfl
  have h2 : fin 10000 / inf false = fin 0 := by
    show div (fin 10000) (inf false) = _
    simp [div, zero, signBit]
  have h3 : inf false / inf false = nan := rfl
  have h4 : (1 : F64) - fin 0 = fin 1 := by rw [one_eq, sub_fin_zero]
  have h5 : fin 32 * fin 1 = fin 32 := by
    rw [mul_fin _ _ (by norm_num) (by norm_num), mul_one, ofRat_of_isF64 isF64_32]
  have h6 : fin 1600 + fin 32 = fin 1632 := by
    rw [add_fin]
    have : (1600 : ℚ) + 32 = 1632 := by norm_num
    rw [this, ofRat_of_isF64 (isF64_ofNat 1632 (by norm_num))]
  rw [h1, h2, h3, h4, h5, h6, mul_nan, sub_nan]

end F64

/-! ## Conversion to integers and the entries after a match -/

/-- Discarding the fraction of a rational: the result is no larger in absolute value
than the argument, within one of it, and never of the opposite sign. -/
theorem trunc_spec (q : ℚ) :
    |(((if 0 ≤ q then ⌊q⌋ else ⌈q⌉ : Int)) : ℚ)| ≤ |q|
      ∧ |q| < |(((if 0 ≤ q then ⌊q⌋ else ⌈q⌉ : Int)) : ℚ)| + 1
      ∧ 0 ≤ (((if 0 ≤ q then ⌊q⌋ else ⌈q⌉ : Int)) : ℚ) * q := by
  split_ifs with h
  · have h0 : (0 : ℚ) ≤ ((⌊q⌋ : Int) : ℚ) := by
      exact_mod_cast Int.floor_nonneg.2 h
    rw [abs_of_nonneg h, abs_of_nonneg h0]
    exact ⟨Int.floor_le q, Int.lt_floor_add_one q, mul_nonneg h0 h⟩
  · have hx : q < 0 := lt_of_not_ge h
    have h0 : ((⌈q⌉ : Int) : ℚ) ≤ 0 := by
      exact_mod_cast Int.ceil_le.2 (by simpa using hx.le)
    rw [abs_of_neg hx, abs_of_nonpos h0]
    refine ⟨neg_le_neg (Int.le_ceil q), ?_, mul_nonneg_of_nonpos_of_nonpos h0 hx.le⟩
    have := Int.ceil_lt_add_one q
    linarith

/-- The conversion `goInt` of a finite number whose integer part is a 64-bit integer. -/
theorem goInt_of_range (q : ℚ) (hlo : -2 ^ 63 ≤ (if 0 ≤ q then ⌊q⌋ else ⌈q⌉))
    (hhi : (if 0 ≤ q then ⌊q⌋ else ⌈q⌉) < 2 ^ 63) :
    goInt (F64.fin q) = if 0 ≤ q then ⌊q⌋ else ⌈q⌉ := by
  show (if _ then _ else _) = _
  exact if_pos (And.intro hlo hhi)

/-- The conversion `goInt` of a finite number whose integer part is not a 64-bit
integer. -/
theorem goInt_out_of_range (q : ℚ)
    (h : ¬ (-2 ^ 63 ≤ (if 0 ≤ q then ⌊q⌋ else ⌈q⌉) ∧ (if 0 ≤ q then ⌊q⌋ else ⌈q⌉) < 2 ^ 63)) :
    goInt (F64.fin q) = -2 ^ 63 := by
  show (if _ then _ else _) = _
  exact if_neg h

/-- On the empty server every name is absent and gets the default rating. -/
theorem getD_emptyRedis {F : Type} (L : FloatLib F) (x : String) (d : F) :
    (ratings L (emptyRedis.db "elo") x).getD d = d := rfl

/-- On the server `flakyRedis` every name is absent and gets the default rating. -/
theorem getD_flakyRedis {F : Type} (L : FloatLib F) (x : String) (d : F) :
    (ratings L (flakyRedis.db "elo") x).getD d = d := rfl

/-- The stored entries after a match on a server where no command fails: the loser's
entry is the text of the new loser rating, the winner's entry, when the winner is
another name, the text of the new winner rating, and the status is 200. -/
theorem MatchHandler_lookup {F : Type} [Add F] [Sub F] [Mul F] [Div F] [One F] [NatCast F]
    (L : FloatLib F) (p : Redis) (w l : String) (new : F × F)
    (hreach : p.reachable = true) (hok : ∀ cmd, p.fails cmd = false)
    (hnew : new = eloUpdate L.pow ((ratings L (p.db "elo") w).getD 1600)
      ((ratings L (p.db "elo") l).getD 1600)) :
    (MatchHandler L p (some ⟨w, l⟩)).2.status = 200
      ∧ ((MatchHandler L p (some ⟨w, l⟩)).1.db "elo").lookup l = some (L.formatFloat new.2)
      ∧ (w ≠ l →
          ((MatchHandler L p (some ⟨w, l⟩)).1.db "elo").lookup w
            = some (L.formatFloat new.1)) := by
  obtain ⟨hdb, -, hresp⟩ :=
    MatchHandler_of_ok L p ⟨w, l⟩ hreach (hok _) new hnew (hok _) (hok _)
  simp only at hdb
  refine ⟨by rw [hresp], ?_, ?_⟩
  · rw [hdb, Function.update_same, AList.lookup_insert]
  · intro hwl
    rw [hdb, Function.update_same, AList.lookup_insert_ne hwl, AList.lookup_insert]

namespace F64

/-- The sum of a rating and 16 when it is a finite binary64 number. -/
theorem add_16 (r : ℚ) (h : isF64 (r + 16)) : fin r + (16 : F64) = fin (r + 16) :=
  add_ofNat r (r + 16) 16 (by norm_num) h rfl

/-- The difference of a rating and 16 when it is a finite binary64 number. -/
theorem sub_16 (r : ℚ) (h : isF64 (r - 16)) : fin r - (16 : F64) = fin (r - 16) :=
  sub_ofNat r (r - 16) 16 (by norm_num) h rfl

/-- The rating 1600 plus 16. -/
theorem add_1600_16 : (1600 : F64) + 16 = fin 1616 := by
  rw [ofNat_eq 1600 (by norm_num),
    add_ofNat 1600 1616 16 (by norm_num) (isF64_ofNat 1616 (by norm_num)) (by norm_num)]

/-- The rating 1600 minus 16. -/
theorem sub_1600_16 : (1600 : F64) - 16 = fin 1584 := by
  rw [ofNat_eq 1600 (by norm_num),
    sub_ofNat 1600 1584 16 (by norm_num) (isF64_ofNat 1584 (by norm_num)) (by norm_num)]

/-- The rating 124000 divided by 400 without the library: the quotient is 310. -/
theorem div_124000 : fin 124000 / (400 : F64) = fin 310 :=
  fin_div_400 124000 310 (by norm_num) (isF64_ofNat 310 (by norm_num)) (by norm_num)

/-- Equal ratings in `float64` when the double of the power is not finite: the sum of
the two powers is positive infinity, both expected scores are 0, the winner gains 32
and the loser keeps its rating. -/
theorem eloUpdate_equal_of_double_overflow (pow : F64 → F64 → F64) (R : F64) (x : ℚ)
    (hx : pow 10 (R / 400) = fin x) (hx2 : 2 ^ 1024 ≤ 2 * x) :
    expectedScores pow R R = (fin 0, fin 0) ∧ eloUpdate pow R R = (R + 32, R) := by
  have hx0 : 0 < x := by
    have : (0 : ℚ) < 2 ^ 1024 := by positivity
    linarith
  have hsum : fin x + fin x = inf false := by
    rw [add_fin]
    unfold ofRat
    rw [if_pos (overflow_of_le (by linarith))]
    simp [not_lt.2 (by linarith : (0 : ℚ) ≤ x + x)]
  have hdiv : fin x / inf false = fin 0 := by
    show div (fin x) (inf false) = _
    simp [div, zero, signBit, not_lt.2 hx0.le]
  have he : expectedScores pow R R = (fin 0, fin 0) := by
    simp only [expectedScores, hx, hsum, hdiv]
  refine ⟨he, ?_⟩
  simp only [eloUpdate, he, K_eq]
  have h1 : (1 : F64) - fin 0 = fin 1 := by rw [one_eq, sub_fin_zero]
  have h2 : fin 32 * fin 1 = fin 32 := by
    rw [mul_fin _ _ (by norm_num) (by norm_num), mul_one, ofRat_of_isF64 isF64_32]
  have h3 : fin 32 * fin 0 = fin 0 := by
    show mul (fin 32) (fin 0) = _
    simp [mul, isZero, zero, signBit]
  have h4 : R - fin 0 = R := by
    cases R with
    | fin a => exact sub_fin_zero a
    | nan => rfl
    | inf s => show add (inf s) (neg (fin 0)) = _; simp [neg, add]
    | negZero => show add negZero (neg (fin 0)) = _; simp [neg, add]
  rw [h1, h2, h3, h4, ofNat_eq 32 (by norm_num)]

end F64

/-! ## The claims -/

/-- C1. Post-state of recordMatch, in the arithmetic the handler runs on (`float64` is
the instance `F64`): when the pool gives a connection, the read and both writes succeed
and the two written values survive the text encoding, the ratings table afterwards is
the table before with the winner at `Rw + 32 * (1 - Ew)` and the loser at
`Rl - 32 * El` (1600 standing for an absent name); every other player keeps its rating
and its stored entry, both players have an entry, and the status is 200. -/
theorem recordMatch_post {F : Type} [Add F] [Sub F] [Mul F] [Div F] [One F] [NatCast F]
    (L : FloatLib F) (p : Redis) (w l : String) (Rw Rl Ew El : F)
    (hwl : w ≠ l)
    (hRw : Rw = (ratings L (p.db "elo") w).getD 1600)
    (hRl : Rl = (ratings L (p.db "elo") l).getD 1600)
    (hEw : Ew = L.pow 10 (Rw / 400) / (L.pow 10 (Rw / 400) + L.pow 10 (Rl / 400)))
    (hEl : El = L.pow 10 (Rl / 400) / (L.pow 10 (Rw / 400) + L.pow 10 (Rl / 400)))
    (hreach : p.reachable = true)
    (hread : p.fails ["HGETALL", "elo"] = false)
    (hsetw : p.fails ["HSET", "elo", w, L.formatFloat (Rw + 32 * (1 - Ew))] = false)
    (hsetl : p.fails ["HSET", "elo", l, L.formatFloat (Rl - 32 * El)] = false)
    (hrtw : L.parseFloat (L.formatFloat (Rw + 32 * (1 - Ew))) = some (Rw + 32 * (1 - Ew)))
    (hrtl : L.parseFloat (L.formatFloat (Rl - 32 * El)) = some (Rl - 32 * El)) :
    ratings L ((MatchHandler L p (some ⟨w, l⟩)).1.db "elo")
        = Function.update (Function.update (ratings L (p.db "elo")) w
            (some (Rw + 32 * (1 - Ew)))) l (some (Rl - 32 * El))
      ∧ (∀ x, x ≠ w → x ≠ l →
          ratings L ((MatchHandler L p (some ⟨w, l⟩)).1.db "elo") x
            = ratings L (p.db "elo") x)
      ∧ (∀ x v, x ≠ w → x ≠ l → (p.db "elo").lookup x = some v →
          (L.parseFloat v).isSome = true →
          ((MatchHandler L p (some ⟨w, l⟩)).1.db "elo").lookup x = some v)
      ∧ ((MatchHandler L p (some ⟨w, l⟩)).1.db "elo").lookup w
          = some (L.formatFloat (Rw + 32 * (1 - Ew)))
      ∧ ((MatchHandler L p (some ⟨w, l⟩)).1.db "elo").lookup l
          = some (L.formatFloat (Rl - 32 * El))
      ∧ (∀ key, key ≠ "elo" → (MatchHandler L p (some ⟨w, l⟩)).1.db key = p.db key)
      ∧ (MatchHandler L p (some ⟨w, l⟩)).2.status = 200 := by
  have hnew : (Rw + 32 * (1 - Ew), Rl - 32 * El)
      = eloUpdate L.pow ((ratings L (p.db "elo") w).getD 1600)
          ((ratings L (p.db "elo") l).getD 1600) := by
    rw [hEw, hEl, ← hRw, ← hRl]; rfl
  obtain ⟨hdb, -, hresp⟩ :=
    MatchHandler_of_ok L p ⟨w, l⟩ hreach hread _ hnew hsetw hsetl
  simp only at hdb
  have hother : ∀ x, x ≠ w → x ≠ l →
      ((MatchHandler L p (some ⟨w, l⟩)).1.db "elo").lookup x
        = ((allElos L p).1.db "elo").lookup x := by
    intro x hxw hxl
    rw [hdb, Function.update_same, AList.lookup_insert_ne hxl, AList.lookup_insert_ne hxw]
  have hlw : ((MatchHandler L p (some ⟨w, l⟩)).1.db "elo").lookup w
      = some (L.formatFloat (Rw + 32 * (1 - Ew))) := by
    rw [hdb, Function.update_same, AList.lookup_insert_ne hwl, AList.lookup_insert]
  have hll : ((MatchHandler L p (some ⟨w, l⟩)).1.db "elo").lookup l
      = some (L.formatFloat (Rl - 32 * El)) := by
    rw [hdb, Function.update_same, AList.lookup_insert]
  have hrat : ∀ x, x ≠ w → x ≠ l →
      ratings L ((MatchHandler L p (some ⟨w, l⟩)).1.db "elo") x
        = ratings L (p.db "elo") x := by
    intro x hxw hxl
    rw [← allElos_ratings L p x]
    unfold ratings
    rw [hother x hxw hxl]
  refine ⟨?_, hrat, ?_, hlw, hll, ?_, ?_⟩
  · funext x
    by_cases hxl : x = l
    · subst hxl
      rw [Function.update_same]
      unfold ratings
      rw [hll]
      exact hrtl
    · rw [Function.update_noteq hxl]
      by_cases hxw : x = w
      · subst hxw
        rw [Function.update_same]
        unfold ratings
        rw [hlw]
        exact hrtw
      · rw [Function.update_noteq hxw]
        exact hrat x hxw hxl
  · intro x v hxw hxl hv hp
    rw [hother x hxw hxl, allElos_lookup_elo L p hread, hv]
    simp [Option.filter, hp]
  · intro key hkey
    rw [hdb, Function.update_noteq hkey]
    exact allElos_db_of_ne L p key hkey
  · rw [hresp]

/-- Two instances of C1 in `float64`.  "A" rated 0 beats "B" rated 8000: the sum
`1 + 1e20` and the difference `1 - 1e-20` are rounded, the winner moves to exactly 32
and the loser to 7968.  "A" beats "B", both rated 124000: the powers overflow, `Ew` and
`El` are NaN and so are both new ratings. -/
theorem recordMatch_post_witness :
    (ratings sampleLib ((MatchHandler sampleLib unevenRedis (some ⟨"A", "B"⟩)).1.db "elo") "A"
          = some (F64.fin 32)
        ∧ ratings sampleLib ((MatchHandler sampleLib unevenRedis (some ⟨"A", "B"⟩)).1.db "elo")
          "B" = some (F64.fin 7968))
      ∧ (ratings sampleLib ((MatchHandler sampleLib overflowRedis (some ⟨"A", "B"⟩)).1.db "elo")
          "A" = some F64.nan
        ∧ ratings sampleLib ((MatchHandler sampleLib overflowRedis (some ⟨"A", "B"⟩)).1.db "elo")
          "B" = some F64.nan) := by
  have hu1 : F64.fin 0 + 32 * (1 - (expectedScores samplePow (F64.fin 0) (F64.fin 8000)).1)
      = F64.fin 32 := congrArg Prod.fst F64.eloUpdate_uneven
  have hu2 : F64.fin 8000 - 32 * (expectedScores samplePow (F64.fin 0) (F64.fin 8000)).2
      = F64.fin 7968 := congrArg Prod.snd F64.eloUpdate_uneven
  have ho1 : F64.fin 124000
        + 32 * (1 - (expectedScores samplePow (F64.fin 124000) (F64.fin 124000)).1)
      = F64.nan := congrArg Prod.fst F64.eloUpdate_124000.2
  have ho2 : F64.fin 124000
        - 32 * (expectedScores samplePow (F64.fin 124000) (F64.fin 124000)).2
      = F64.nan := congrArg Prod.snd F64.eloUpdate_124000.2
  have h := recordMatch_post sampleLib unevenRedis "A" "B" (F64.fin 0) (F64.fin 8000)
    (expectedScores samplePow (F64.fin 0) (F64.fin 8000)).1
    (expectedScores samplePow (F64.fin 0) (F64.fin 8000)).2 (by decide)
    (by rw [show ratings sampleLib (unevenRedis.db "elo") "A" = some (F64.fin 0) by decide]; rfl)
    (by rw [show ratings sampleLib (unevenRedis.db "elo") "B" = some (F64.fin 8000) by decide]
        rfl)
    rfl rfl rfl rfl rfl rfl (by rw [hu1]; decide) (by rw [hu2]; decide)
  have h' := recordMatch_post sampleLib overflowRedis "A" "B" (F64.fin 124000)
    (F64.fin 124000)
    (expectedScores samplePow (F64.fin 124000) (F64.fin 124000)).1
    (expectedScores samplePow (F64.fin 124000) (F64.fin 124000)).2 (by decide)
    (by rw [show ratings sampleLib (overflowRedis.db "elo") "A" = some (F64.fin 124000)
          by decide]; rfl)
    (by rw [show ratings sampleLib (overflowRedis.db "elo") "B" = some (F64.fin 124000)
          by decide]; rfl)
    rfl rfl rfl rfl rfl rfl (by rw [ho1]; decide) (by rw [ho2]; decide)
  have h1 := congrFun h.1 "A"
  have h2 := congrFun h.1 "B"
  have h3 := congrFun h'.1 "A"
  have h4 := congrFun h'.1 "B"
  rw [Function.update_noteq (by decide), Function.update_same, hu1] at h1
  rw [Function.update_same, hu2] at h2
  rw [Function.update_noteq (by decide), Function.update_same, ho1] at h3
  rw [Function.update_same, ho2] at h4
  exact ⟨⟨h1, h2⟩, h3, h4⟩

/-- C2 (the code does not do this). On a server where "alice" holds the rating 1616,
`PlayerHandler` for "alice" sends `HSET alice 1600`, a command with a key and one more
argument that the server rejects; the hash "elo" is as before and `EloHandler` still
answers 1616 for "alice", not 1600. -/
theorem registerPlayer_does_not_reset :
    (PlayerHandler sampleLib sampleRedis "alice").1.log = [["HSET", "alice", "1600"]]
      ∧ (PlayerHandler sampleLib sampleRedis "alice").1.db = sampleRedis.db
      ∧ (EloHandler sampleLib (PlayerHandler sampleLib sampleRedis "alice").1
          (some "alice")).2.result = some (AList.singleton "alice" 1616) := by
  refine ⟨?_, (PlayerHandler_db _ _ _).1, ?_⟩
  · rw [(PlayerHandler_db _ _ _).2.2.2 rfl, F64.ofNat_eq 1600 (by norm_num)]
    have h : sampleLib.formatFloat (F64.fin 1600) = "1600" := by decide
    rw [h]
    rfl
  · rw [EloHandler_after_PlayerHandler, EloHandler_of_read _ _ _ rfl rfl]
    have h : ratings sampleLib (sampleRedis.db "elo") "alice" = some (F64.fin 1616) := by
      decide
    simp only [h]
    have h1 : sampleLib.toInt (F64.fin 1616) = 1616 := by decide
    rw [h1]

/-- C3, refuted as stated.  "A" and "B" both hold the rating 124000 and "A" beats "B":
`math.Pow(10, 310)` is positive infinity, both expected scores are NaN, not 0.5, the
request ends with status 200 and both stored ratings are NaN, not 124016 and 123984. -/
theorem elo_symmetry_counterexample :
    ratings sampleLib (overflowRedis.db "elo") "A" = some (F64.fin 124000)
      ∧ ratings sampleLib (overflowRedis.db "elo") "B" = some (F64.fin 124000)
      ∧ sampleLib.pow 10 (F64.fin 124000 / 400) = F64.inf false
      ∧ expectedScores sampleLib.pow (F64.fin 124000) (F64.fin 124000) = (F64.nan, F64.nan)
      ∧ expectedScores sampleLib.pow (F64.fin 124000) (F64.fin 124000)
          ≠ (F64.fin (1 / 2), F64.fin (1 / 2))
      ∧ (MatchHandler sampleLib overflowRedis (some ⟨"A", "B"⟩)).2.status = 200
      ∧ ratings sampleLib ((MatchHandler sampleLib overflowRedis (some ⟨"A", "B"⟩)).1.db "elo")
          "A" = some F64.nan
      ∧ ratings sampleLib ((MatchHandler sampleLib overflowRedis (some ⟨"A", "B"⟩)).1.db "elo")
          "B" = some F64.nan
      ∧ ratings sampleLib ((MatchHandler sampleLib overflowRedis (some ⟨"A", "B"⟩)).1.db "elo")
          "A" ≠ some (F64.fin (124000 + 16))
      ∧ ratings sampleLib ((MatchHandler sampleLib overflowRedis (some ⟨"A", "B"⟩)).1.db "elo")
          "B" ≠ some (F64.fin (124000 - 16)) := by
  have hA : ratings sampleLib (overflowRedis.db "elo") "A" = some (F64.fin 124000) := by
    decide
  have hB : ratings sampleLib (overflowRedis.db "elo") "B" = some (F64.fin 124000) := by
    decide
  have hnew : (F64.nan, F64.nan)
      = eloUpdate sampleLib.pow ((ratings sampleLib (overflowRedis.db "elo") "A").getD 1600)
          ((ratings sampleLib (overflowRedis.db "elo") "B").getD 1600) := by
    rw [hA, hB]
    exact F64.eloUpdate_124000.2.symm
  obtain ⟨hst, hl, hw⟩ :=
    MatchHandler_lookup sampleLib overflowRedis "A" "B" _ rfl (fun _ => rfl) hnew
  have hw' := hw (by decide)
  have hrA : ratings sampleLib
      ((MatchHandler sampleLib overflowRedis (some ⟨"A", "B"⟩)).1.db "elo") "A"
        = some F64.nan := by
    rw [ratings, hw']
    decide
  have hrB : ratings sampleLib
      ((MatchHandler sampleLib overflowRedis (some ⟨"A", "B"⟩)).1.db "elo") "B"
        = some F64.nan := by
    rw [ratings, hl]
    decide
  refine ⟨hA, hB, F64.samplePow_310, F64.eloUpdate_124000.1, ?_, hst, hrA, hrB, ?_, ?_⟩
  · rw [show expectedScores sampleLib.pow (F64.fin 124000) (F64.fin 124000)
        = (F64.nan, F64.nan) from F64.eloUpdate_124000.1]
    intro h
    cases (Prod.mk.inj h).1
  · rw [hrA]
    intro h
    cases Option.some.inj h
  · rw [hrB]
    intro h
    cases Option.some.inj h

/-- C3, amended.  Symmetry of the Elo update in `float64`: when the winner and the
loser, two distinct names, both have rating `R` (1600 standing for an absent name) and
`math.Pow(10, R / 400)` is a positive finite number whose double is finite, each
expected score is exactly 1/2 and the new ratings are `R + 16` and `R - 16` as
`float64` computes them, which is exact whenever the exact sum and difference are
`float64` numbers; after a successful match the table holds these values (when they
survive the text encoding), and with `R = 1600` the handler `EloHandler` then answers
1616 for the winner and 1584 for the loser. -/
theorem elo_symmetry (L : FloatLib F64) (p : Redis) (w l : String) (R : F64) (x : ℚ)
    (hint : L.toInt = goInt)
    (hx : L.pow 10 (R / 400) = F64.fin x) (hxf : isF64 x) (hx0 : 0 < x)
    (hx2 : 2 * x < 2 ^ 1024) (hwl : w ≠ l)
    (hRw : (ratings L (p.db "elo") w).getD 1600 = R)
    (hRl : (ratings L (p.db "elo") l).getD 1600 = R)
    (hreach : p.reachable = true) (hok : ∀ cmd, p.fails cmd = false)
    (hrtw : L.parseFloat (L.formatFloat (R + 16)) = some (R + 16))
    (hrtl : L.parseFloat (L.formatFloat (R - 16)) = some (R - 16)) :
    expectedScores L.pow R R = (F64.fin (1 / 2), F64.fin (1 / 2))
      ∧ eloUpdate L.pow R R = (R + 16, R - 16)
      ∧ (∀ r : ℚ, R = F64.fin r → isF64 (r + 16) → isF64 (r - 16) →
          eloUpdate L.pow R R = (F64.fin (r + 16), F64.fin (r - 16)))
      ∧ ratings L ((MatchHandler L p (some ⟨w, l⟩)).1.db "elo") w = some (R + 16)
      ∧ ratings L ((MatchHandler L p (some ⟨w, l⟩)).1.db "elo") l = some (R - 16)
      ∧ (MatchHandler L p (some ⟨w, l⟩)).2.status = 200
      ∧ (R = 1600 →
          (EloHandler L (MatchHandler L p (some ⟨w, l⟩)).1 (some w)).2.result
              = some (AList.singleton w 1616)
            ∧ (EloHandler L (MatchHandler L p (some ⟨w, l⟩)).1 (some l)).2.result
              = some (AList.singleton l 1584)) := by
  have hupd := F64.eloUpdate_equal L.pow R x hx hxf hx0 hx2
  have hnew : (R + 16, R - 16)
      = eloUpdate L.pow ((ratings L (p.db "elo") w).getD 1600)
          ((ratings L (p.db "elo") l).getD 1600) := by
    rw [hRw, hRl, hupd]
  obtain ⟨hst, hll, hlw⟩ := MatchHandler_lookup L p w l _ hreach hok hnew
  have hw : ratings L ((MatchHandler L p (some ⟨w, l⟩)).1.db "elo") w = some (R + 16) := by
    rw [ratings, hlw hwl]
    exact hrtw
  have hl : ratings L ((MatchHandler L p (some ⟨w, l⟩)).1.db "elo") l = some (R - 16) := by
    rw [ratings, hll]
    exact hrtl
  refine ⟨F64.expectedScores_equal L.pow R x hx hxf hx0 hx2, hupd, ?_, hw, hl, hst, ?_⟩
  · intro r hr h1 h2
    rw [hupd, hr, F64.add_16 r h1, F64.sub_16 r h2]
  · intro hR
    have hr : (MatchHandler L p (some ⟨w, l⟩)).1.reachable = true := by
      rw [MatchHandler_reachable]; exact hreach
    have hf : (MatchHandler L p (some ⟨w, l⟩)).1.fails ["HGETALL", "elo"] = false := by
      rw [MatchHandler_fails]; exact hok _
    rw [EloHandler_of_read L _ w hr hf, EloHandler_of_read L _ l hr hf]
    simp only [hw, hl, hR, hint, F64.add_1600_16, F64.sub_1600_16]
    have h1 : goInt (F64.fin 1616) = 1616 := by decide
    have h2 : goInt (F64.fin 1584) = 1584 := by decide
    rw [h1, h2]
    exact ⟨rfl, rfl⟩

/-- An instance of the amended C3: "A" beats "B" on the empty server, then both
ratings are read. -/
theorem elo_symmetry_witness :
    (EloHandler sampleLib (MatchHandler sampleLib emptyRedis (some ⟨"A", "B"⟩)).1
        (some "A")).2.result = some (AList.singleton "A" 1616)
      ∧ (EloHandler sampleLib (MatchHandler sampleLib emptyRedis (some ⟨"A", "B"⟩)).1
        (some "B")).2.result = some (AList.singleton "B" 1584) :=
  (elo_symmetry sampleLib emptyRedis "A" "B" 1600 10000 rfl
    (by rw [F64.ofNat_eq 1600 (by norm_num)]; exact F64.samplePow_4)
    F64.isF64_10000 (by norm_num) (lt_trans (by norm_num) two_pow_53_lt) (by decide)
    (getD_emptyRedis _ _ _) (getD_emptyRedis _ _ _) rfl (fun _ => rfl)
    (by rw [F64.add_1600_16]; decide) (by rw [F64.sub_1600_16]; decide)).2.2.2.2.2.2 rfl

/-- C4, refuted as stated.  For `Rw = Rl = 124000`, two ratings that are not negative
with `Rw <= Rl`, `math.Pow(10, 310)` is positive infinity and both new ratings are NaN:
the new rating of the winner is not greater than `Rw`, and neither `Rw <= new` nor
`new <= Rl` holds for a NaN. -/
theorem elo_direction_counterexample :
    F64.le (F64.fin 0) (F64.fin 124000) = true
      ∧ F64.le (F64.fin 124000) (F64.fin 124000) = true
      ∧ samplePow 10 (F64.fin 124000 / 400) = F64.inf false
      ∧ eloUpdate samplePow (F64.fin 124000) (F64.fin 124000) = (F64.nan, F64.nan)
      ∧ F64.lt (F64.fin 124000) (eloUpdate samplePow (F64.fin 124000) (F64.fin 124000)).1
          = false
      ∧ F64.le (F64.fin 124000) (eloUpdate samplePow (F64.fin 124000) (F64.fin 124000)).1
          = false
      ∧ F64.le (eloUpdate samplePow (F64.fin 124000) (F64.fin 124000)).2 (F64.fin 124000)
          = false := by
  refine ⟨by decide, by decide, F64.samplePow_310, F64.eloUpdate_124000.2, ?_, ?_, ?_⟩ <;>
    rw [F64.eloUpdate_124000.2] <;> rfl

/-- C4, amended.  Direction of the Elo update in `float64`: for finite ratings `Rw ≥ 0`
and `Rl` for which `math.Pow` gives positive finite powers, the winner's new rating is
not lower than `Rw` and the loser's new rating is not higher than `Rl`; and when
`Rw ≤ Rl`, the power of `Rw` is not above the power of `Rl` and `Rw < 2 ^ 52`, the
winner's new rating is strictly greater than `Rw`. -/
theorem elo_direction (pow : F64 → F64 → F64) (a b rW rL : ℚ)
    (ha : isF64 a) (hb : isF64 b) (h0a : 0 ≤ a)
    (hW : pow 10 (F64.fin a / 400) = F64.fin rW) (hL : pow 10 (F64.fin b / 400) = F64.fin rL)
    (hrW : isF64 rW) (hrL : isF64 rL) (hW0 : 0 < rW) (hL0 : 0 < rL) :
    F64.le (F64.fin a) (eloUpdate pow (F64.fin a) (F64.fin b)).1 = true
      ∧ F64.le (eloUpdate pow (F64.fin a) (F64.fin b)).2 (F64.fin b) = true
      ∧ (a ≤ b → rW ≤ rL → a < 2 ^ 52 →
          F64.lt (F64.fin a) (eloUpdate pow (F64.fin a) (F64.fin b)).1 = true) := by
  obtain ⟨eW, eL, he, hW0', hW1', hL0', hL1', hhalf⟩ :=
    F64.expectedScores_cases pow _ _ rW rL hW hL hrW hrL hW0 hL0
  obtain ⟨δ, hδ, hd0, hd1, hdhalf⟩ := F64.one_sub_cases hW0' hW1'
  obtain ⟨γ, hγ, hg0, -, hg16⟩ := F64.K_mul_cases hd0 hd1
  obtain ⟨γ', hγ', hg0', -, -⟩ := F64.K_mul_cases hL0' hL1'
  simp only [eloUpdate, he, hδ, hγ, hγ']
  refine ⟨(F64.le_add_fin ha hg0).1, F64.sub_fin_le hb hg0', fun _ hr hsmall => ?_⟩
  refine (F64.le_add_fin ha hg0).2 (hg16 (hdhalf (hhalf hr))) ?_
  rw [abs_of_nonneg h0a]
  exact hsmall

/-- An instance of the amended C4: a winner rated 0 against a loser rated 8000. -/
theorem elo_direction_witness :
    F64.le (F64.fin 0) (eloUpdate samplePow (F64.fin 0) (F64.fin 8000)).1 = true
      ∧ F64.le (eloUpdate samplePow (F64.fin 0) (F64.fin 8000)).2 (F64.fin 8000) = true
      ∧ F64.lt (F64.fin 0) (eloUpdate samplePow (F64.fin 0) (F64.fin 8000)).1 = true :=
  ⟨(elo_direction samplePow 0 8000 1 (10 ^ 20) isF64_zero (isF64_ofNat 8000 (by norm_num))
      le_rfl F64.samplePow_0 F64.samplePow_20 isF64_one F64.isF64_1e20
      (by norm_num) (by norm_num)).1,
    (elo_direction samplePow 0 8000 1 (10 ^ 20) isF64_zero (isF64_ofNat 8000 (by norm_num))
      le_rfl F64.samplePow_0 F64.samplePow_20 isF64_one F64.isF64_1e20
      (by norm_num) (by norm_num)).2.1,
    (elo_direction samplePow 0 8000 1 (10 ^ 20) isF64_zero (isF64_ofNat 8000 (by norm_num))
      le_rfl F64.samplePow_0 F64.samplePow_20 isF64_one F64.isF64_1e20
      (by norm_num) (by norm_num)).2.2 (by norm_num) (by norm_num)
      (lt_trans (by norm_num) (by norm_num : (1 : ℚ) < 2 ^ 52))⟩

/-- C5, refuted as stated.  "carol" holds the parseable entry "1e19"; the handler
answers the least 64-bit integer for her, not the rating truncated toward zero, which
is `10 ^ 19`. -/
theorem getRating_result_counterexample :
    (hugeRedis.db "elo").lookup "carol" = some "1e19"
      ∧ ratings sampleLib (hugeRedis.db "elo") "carol" = some (F64.fin (10 ^ 19))
      ∧ (if (0 : ℚ) ≤ 10 ^ 19 then ⌊(10 ^ 19 : ℚ)⌋ else ⌈(10 ^ 19 : ℚ)⌉) = 10 ^ 19
      ∧ (EloHandler sampleLib hugeRedis (some "carol")).2.status = 200
      ∧ (EloHandler sampleLib hugeRedis (some "carol")).2.result
          = some (AList.singleton "carol" (-9223372036854775808))
      ∧ (EloHandler sampleLib hugeRedis (some "carol")).2.result
          ≠ some (AList.singleton "carol" (10 ^ 19)) := by
  have hr : ratings sampleLib (hugeRedis.db "elo") "carol" = some (F64.fin (10 ^ 19)) := by
    decide
  have hres : (EloHandler sampleLib hugeRedis (some "carol")).2.result
      = some (AList.singleton "carol" (-9223372036854775808)) := by
    rw [EloHandler_of_read _ _ _ rfl rfl]
    simp only [hr]
    have h1 : sampleLib.toInt (F64.fin (10 ^ 19)) = -9223372036854775808 := by decide
    rw [h1]
  refine ⟨by decide, hr, ?_, ?_, hres, ?_⟩
  · have h : (10 ^ 19 : ℚ) = ((10 ^ 19 : ℤ) : ℚ) := by norm_num
    rw [if_pos (by positivity), h, Int.floor_intCast]
  · rw [EloHandler_of_read _ _ _ rfl rfl]
  · rw [hres]
    intro h
    have h2 := congrArg AList.entries (Option.some.inj h)
    norm_num [AList.singleton] at h2

/-- C5, amended.  The handler `EloHandler` with a player parameter, when the pool
gives a connection and the read succeeds: the result is the map with the one key
`name`.  Its value is the stored rating truncated toward zero when the stored text
parses to a finite number whose integer part is a 64-bit integer; it is the least
64-bit integer when the text parses to a finite number outside this range, to an
infinity or to NaN; and it is 1600 when the name has no parseable entry, in which case
the store has no entry for the name afterwards (an unparseable entry is removed by its
HDEL, provided that command does not fail). -/
theorem getRating_result (L : FloatLib F64) (p : Redis) (name : String)
    (hint : L.toInt = goInt)
    (hreach : p.reachable = true) (hread : p.fails ["HGETALL", "elo"] = false) :
    (EloHandler L p (some name)).2.status = 200
      ∧ (∃ n : Int, (EloHandler L p (some name)).2.result = some (AList.singleton name n))
      ∧ (∀ q : ℚ, ratings L (p.db "elo") name = some (F64.fin q) →
          -2 ^ 63 ≤ (if 0 ≤ q then ⌊q⌋ else ⌈q⌉) → (if 0 ≤ q then ⌊q⌋ else ⌈q⌉) < 2 ^ 63 →
          (EloHandler L p (some name)).2.result
              = some (AList.singleton name (if 0 ≤ q then ⌊q⌋ else ⌈q⌉))
            ∧ ∃ n : Int, (EloHandler L p (some name)).2.result = some (AList.singleton name n)
                ∧ |(n : ℚ)| ≤ |q| ∧ |q| < |(n : ℚ)| + 1 ∧ 0 ≤ (n : ℚ) * q)
      ∧ (∀ q : ℚ, ratings L (p.db "elo") name = some (F64.fin q) →
          ¬ (-2 ^ 63 ≤ (if 0 ≤ q then ⌊q⌋ else ⌈q⌉)
              ∧ (if 0 ≤ q then ⌊q⌋ else ⌈q⌉) < 2 ^ 63) →
          (EloHandler L p (some name)).2.result = some (AList.singleton name (-2 ^ 63)))
      ∧ (∀ elo, ratings L (p.db "elo") name = some elo →
          (elo = F64.nan ∨ ∃ s, elo = F64.inf s) →
          (EloHandler L p (some name)).2.result = some (AList.singleton name (-2 ^ 63)))
      ∧ (ratings L (p.db "elo") name = some F64.negZero →
          (EloHandler L p (some name)).2.result = some (AList.singleton name 0))
      ∧ (ratings L (p.db "elo") name = none →
          (EloHandler L p (some name)).2.result = some (AList.singleton name 1600)
            ∧ ((p.db "elo").lookup name = none →
                ((EloHandler L p (some name)).1.db "elo").lookup name = none)
            ∧ (p.fails ["HDEL", "elo", name] = false →
                ((EloHandler L p (some name)).1.db "elo").lookup name = none)) := by
  rw [EloHandler_of_read L p name hreach hread, hint]
  refine ⟨rfl, ⟨_, rfl⟩, ?_, ?_, ?_, ?_, ?_⟩
  · intro q hq hlo hhi
    simp only [hq, goInt_of_range q hlo hhi]
    exact ⟨trivial, _, rfl, trunc_spec q⟩
  · intro q hq hout
    simp only [hq, goInt_out_of_range q hout]
  · rintro elo helo (rfl | ⟨s, rfl⟩)
    · simp only [helo]
      rfl
    · simp only [helo]
      rfl
  · intro hz
    simp only [hz]
    rfl
  · intro hnone
    simp only [hnone]
    refine ⟨trivial, ?_, ?_⟩
    · intro hl
      rw [allElos_lookup_elo L p hread, hl]
      rfl
    · intro hdel
      rw [allElos_lookup_elo L p hread]
      cases hv : (p.db "elo").lookup name with
      | none => rfl
      | some v =>
        have hp : L.parseFloat v = none := by
          simpa [ratings, hv] using hnone
        simp [Option.filter, hp, hdel]

/-- Two instances of the amended C5: the rating of "alice", stored as "1616", and the
rating of "mallory", whose stored text does not parse. -/
theorem getRating_result_witness :
    (EloHandler sampleLib sampleRedis (some "alice")).2.result
        = some (AList.singleton "alice" 1616)
      ∧ (EloHandler sampleLib sampleRedis (some "mallory")).2.result
        = some (AList.singleton "mallory" 1600)
      ∧ ((EloHandler sampleLib sampleRedis (some "mallory")).1.db "elo").lookup "mallory"
        = none := by
  have ha := ((getRating_result sampleLib sampleRedis "alice" rfl rfl rfl).2.2.1 1616
    (by decide) (by decide) (by decide)).1
  have hm := (getRating_result sampleLib sampleRedis "mallory" rfl rfl rfl).2.2.2.2.2.2
    (by decide)
  have e : (if (0 : ℚ) ≤ 1616 then ⌊(1616 : ℚ)⌋ else ⌈(1616 : ℚ)⌉) = 1616 := by decide
  rw [e] at ha
  exact ⟨ha, hm.1, hm.2.2 rfl⟩

/-- C6. Corruption self-heal in `allElos`, when HGETALL is answered: the returned map
holds exactly the names whose stored text parses, each with its parsed value; after
HGETALL the function sends HDEL for exactly the names whose text does not parse;
`EloHandler` then answers 1600 for such a name; and when no HDEL fails the hash
afterwards holds no unparseable entry. -/
theorem allElos_self_heal {F : Type}
    (L : FloatLib F) (c : Redis)
    (hread : c.fails ["HGETALL", "elo"] = false) :
    ∃ (retval : AList (fun _ : String => F)) (dels : List String),
      (allElos L c).2 = some retval
      ∧ (∀ name f, retval.lookup name = some f ↔
          ∃ s, (c.db "elo").lookup name = some s ∧ L.parseFloat s = some f)
      ∧ dels.Nodup
      ∧ (allElos L c).1.log
          = c.log ++ ["HGETALL", "elo"] :: dels.map (fun name => ["HDEL", "elo", name])
      ∧ (∀ name, name ∈ dels ↔
          ∃ s, (c.db "elo").lookup name = some s ∧ L.parseFloat s = none)
      ∧ (c.reachable = true → ∀ name, name ∈ dels →
          (EloHandler L (allElos L c).1 (some name)).2.result
            = some (AList.singleton name 1600))
      ∧ ((∀ name, c.fails ["HDEL", "elo", name] = false) →
          (∀ name s, ((allElos L c).1.db "elo").lookup name = some s →
              (L.parseFloat s).isSome = true)
          ∧ (∀ name, name ∈ dels → ((allElos L c).1.db "elo").lookup name = none)) := by
  obtain ⟨retval, hsnd, hlook⟩ := allElos_snd L c hread
  obtain ⟨dels, hnd, hlog, hdels⟩ := allElos_log L c hread
  refine ⟨retval, dels, hsnd, ?_, hnd, hlog, hdels, ?_, ?_⟩
  · intro name f
    rw [hlook]
    unfold ratings
    cases (c.db "elo").lookup name <;> simp
  · intro hreach name hmem
    have hr : (allElos L c).1.reachable = true := by
      rw [allElos_reachable]; exact hreach
    have hf : (allElos L c).1.fails ["HGETALL", "elo"] = false := by
      rw [allElos_fails]; exact hread
    have hrat : ratings L ((allElos L c).1.db "elo") name = none := by
      obtain ⟨s, hs, hp⟩ := (hdels name).1 hmem
      rw [allElos_ratings, ratings, hs]
      exact hp
    rw [EloHandler_of_read L _ name hr hf]
    simp only [hrat]
  · intro hdel
    have hafter : ∀ name, ((allElos L c).1.db "elo").lookup name
        = ((c.db "elo").lookup name).filter (fun v => (L.parseFloat v).isSome) := by
      intro name
      rw [allElos_lookup_elo L c hread, hdel]
      simp
    have hgone : ∀ name, name ∈ dels →
        ((allElos L c).1.db "elo").lookup name = none := by
      intro name hmem
      obtain ⟨s, hs, hp⟩ := (hdels name).1 hmem
      rw [hafter, hs]
      simp [Option.filter, hp]
    refine ⟨?_, hgone⟩
    intro name s hs
    rw [hafter] at hs
    cases hv : (c.db "elo").lookup name with
    | none => rw [hv] at hs; cases hs
    | some v =>
      rw [hv] at hs
      by_cases hp : (L.parseFloat v).isSome = true
      · simp only [Option.filter, hp, if_true, Option.some.injEq] at hs
        rw [← hs]; exact hp
      · simp [Option.filter, hp] at hs

/-- An instance of C6: the corrupt entry of "mallory" is deleted by one HDEL. -/
theorem allElos_self_heal_witness :
    ((allElos sampleLib sampleRedis).1.db
        "elo").lookup "mallory" = none
      ∧ (allElos sampleLib sampleRedis).1.log
        = [["HGETALL", "elo"], ["HDEL", "elo", "mallory"]] := by
  obtain ⟨retval, dels, -, -, hnd, hlog, hdels, -, hheal⟩ :=
    allElos_self_heal sampleLib sampleRedis rfl
  have hm : (sampleRedis.db "elo").lookup "mallory" = some "abc" := by
    simp only [sampleRedis, if_true]
    rw [AList.lookup_insert]
  have ha : (sampleRedis.db "elo").lookup "alice" = some "1616" := by
    simp only [sampleRedis, if_true]
    rw [AList.lookup_insert_ne (by decide), AList.lookup_insert]
  have hother : ∀ name, name ≠ "mallory" → name ≠ "alice" →
      (sampleRedis.db "elo").lookup name = none := by
    intro name h1 h2
    simp only [sampleRedis, if_true]
    rw [AList.lookup_insert_ne h1, AList.lookup_insert_ne h2]
    rfl
  have hmem : ∀ name, name ∈ dels ↔ name = "mallory" := by
    intro name
    rw [hdels]
    constructor
    · rintro ⟨s, hs, hp⟩
      by_contra hne
      by_cases hal : name = "alice"
      · subst hal
        rw [ha] at hs
        cases hs
        exact absurd hp (by decide)
      · rw [hother name hne hal] at hs
        cases hs
    · rintro rfl
      exact ⟨"abc", hm, by decide⟩
  have hd : dels = ["mallory"] := by
    have hperm : dels.Perm ["mallory"] := by
      rw [List.perm_ext_iff_of_nodup hnd (by simp)]
      intro a
      rw [hmem a]
      simp
    exact List.perm_singleton.1 hperm
  refine ⟨(hheal (fun _ => rfl)).2 "mallory" ((hmem _).2 rfl), ?_⟩
  rw [hlog, hd]
  rfl

/-- C7. Failure reporting of recordMatch for a decoded request.  The read fails when the
pool gives no connection or HGETALL fails.  The status is 500 exactly when the read
fails or one of the two HSET commands fails, and 200 otherwise; after a failed read the
keyspace is untouched and no HSET is sent; after a successful read both HSET commands
are sent, the winner first, and a write that succeeded stays in place when the other one
fails. -/
theorem recordMatch_failure {F : Type} [Add F] [Sub F] [Mul F] [Div F] [One F] [NatCast F]
    (L : FloatLib F) (p : Redis) (m : Match) (new : F × F)
    (hnew : new = eloUpdate L.pow ((ratings L (p.db "elo") m.Winner).getD 1600)
      ((ratings L (p.db "elo") m.Loser).getD 1600)) :
    ((MatchHandler L p (some m)).2.status = 500 ↔
        (p.reachable = false ∨ p.fails ["HGETALL", "elo"] = true)
          ∨ p.fails ["HSET", "elo", m.Winner, L.formatFloat new.1] = true
          ∨ p.fails ["HSET", "elo", m.Loser, L.formatFloat new.2] = true)
      ∧ ((MatchHandler L p (some m)).2.status = 500
          ∨ (MatchHandler L p (some m)).2.status = 200)
      ∧ (p.reachable = false ∨ p.fails ["HGETALL", "elo"] = true →
          (MatchHandler L p (some m)).1.db = p.db
            ∧ ((MatchHandler L p (some m)).1.log = p.log
                ∨ (MatchHandler L p (some m)).1.log = p.log ++ [["HGETALL", "elo"]]))
      ∧ (p.reachable = true → p.fails ["HGETALL", "elo"] = false →
          (MatchHandler L p (some m)).1.log
              = (allElos L p).1.log
                ++ [["HSET", "elo", m.Winner, L.formatFloat new.1],
                    ["HSET", "elo", m.Loser, L.formatFloat new.2]]
            ∧ (p.fails ["HSET", "elo", m.Winner, L.formatFloat new.1] = false →
                p.fails ["HSET", "elo", m.Loser, L.formatFloat new.2] = true →
                ((MatchHandler L p (some m)).1.db "elo").lookup m.Winner
                  = some (L.formatFloat new.1))
            ∧ (p.fails ["HSET", "elo", m.Winner, L.formatFloat new.1] = true →
                p.fails ["HSET", "elo", m.Loser, L.formatFloat new.2] = false →
                ((MatchHandler L p (some m)).1.db "elo").lookup m.Loser
                  = some (L.formatFloat new.2))) := by
  by_cases hreach : p.reachable = true
  swap
  · simp only [Bool.not_eq_true] at hreach
    rw [MatchHandler_of_unreachable L p m hreach]
    simp [hreach]
  by_cases hread : p.fails ["HGETALL", "elo"] = true
  · rw [MatchHandler_of_read_fails L p m hreach hread]
    simp [hreach, hread]
  simp only [Bool.not_eq_true] at hread
  rw [MatchHandler_of_read L p m hreach hread new hnew]
  have hf1 : (allElos L p).1.fails = p.fails := allElos_fails L p
  have hf2 : ∀ cmd args, (Cmd (allElos L p).1 cmd args).1.fails = p.fails := by
    intro cmd args
    rw [Cmd_fails_eq, hf1]
  simp only [Cmd_HSET_Err, Cmd_HSET_db, Cmd_log_eq, hf1, hf2, hreach, hread]
  refine ⟨?_, ?_, ?_, ?_⟩
  · by_cases h1 : p.fails ["HSET", "elo", m.Winner, L.formatFloat new.1] = true <;>
      by_cases h2 : p.fails ["HSET", "elo", m.Loser, L.formatFloat new.2] = true <;>
      simp [h1, h2]
  · by_cases h1 : p.fails ["HSET", "elo", m.Winner, L.formatFloat new.1] = true <;>
      by_cases h2 : p.fails ["HSET", "elo", m.Loser, L.formatFloat new.2] = true <;>
      simp [h1, h2]
  · simp
  · intro _ _
    refine ⟨by simp, ?_, ?_⟩
    · intro h1 h2
      simp [h1, h2, AList.lookup_insert]
    · intro h1 h2
      simp [h1, h2, AList.lookup_insert]

/-- An instance of C7: the write of the loser fails, the status is 500 and the write of
the winner stays. -/
theorem recordMatch_failure_witness :
    (MatchHandler sampleLib flakyRedis (some ⟨"A", "B"⟩)).2.status = 500
      ∧ ((MatchHandler sampleLib flakyRedis (some ⟨"A", "B"⟩)).1.db "elo").lookup "A"
        = some "1616" := by
  have hnew : (F64.fin 1616, F64.fin 1584)
      = eloUpdate sampleLib.pow ((ratings sampleLib (flakyRedis.db "elo") "A").getD 1600)
          ((ratings sampleLib (flakyRedis.db "elo") "B").getD 1600) := by
    rw [getD_flakyRedis, getD_flakyRedis, F64.ofNat_eq 1600 (by norm_num)]
    exact F64.eloUpdate_1600.symm
  have h := recordMatch_failure sampleLib flakyRedis ⟨"A", "B"⟩ _ hnew
  have hfw : flakyRedis.fails ["HSET", "elo", "A", sampleLib.formatFloat (F64.fin 1616)]
      = false := by decide
  have hfl : flakyRedis.fails ["HSET", "elo", "B", sampleLib.formatFloat (F64.fin 1584)]
      = true := by decide
  refine ⟨h.1.2 (Or.inr (Or.inr hfl)), ?_⟩
  have h2 := (h.2.2.2 rfl rfl).2.1 hfw hfl
  rw [h2]
  decide

/-- C8. Lost update under interleaving, over the reals, on the empty server where no
command fails.  The requests "A beats B" and "A beats C" each take three steps (read,
write the winner, write the loser).  In the schedule where the second request reads
before the first writes, both end with status 200 and the final rating of "A" is 1616,
what the second request alone would leave; run one after the other, in either order,
the two requests leave "A" a rating above 1616, so the final table of the interleaved
run is the table of neither sequential run. -/
theorem lost_update (L : FloatLib ℝ) (hpow : ∀ b e, L.pow b e = b ^ e)
    (hrt1 : L.parseFloat (L.formatFloat 1616) = some 1616)
    (hrt2 : L.parseFloat (L.formatFloat (eloUpdate L.pow 1616 1600).1)
      = some (eloUpdate L.pow 1616 1600).1) :
    (runTwo L [false, true, false, false, true, true]
        (emptyRedis, MatchStage.decoded ⟨"A", "B"⟩, MatchStage.decoded ⟨"A", "C"⟩)).2
        = (MatchStage.finished ⟨200, "", none⟩, MatchStage.finished ⟨200, "", none⟩)
      ∧ ratings L ((runTwo L [false, true, false, false, true, true]
          (emptyRedis, MatchStage.decoded ⟨"A", "B"⟩,
            MatchStage.decoded ⟨"A", "C"⟩)).1.db "elo") "A" = some 1616
      ∧ ratings L ((MatchHandler L emptyRedis (some ⟨"A", "C"⟩)).1.db "elo") "A" = some 1616
      ∧ ratings L ((MatchHandler L (MatchHandler L emptyRedis (some ⟨"A", "B"⟩)).1
          (some ⟨"A", "C"⟩)).1.db "elo") "A" = some (eloUpdate L.pow 1616 1600).1
      ∧ ratings L ((MatchHandler L (MatchHandler L emptyRedis (some ⟨"A", "C"⟩)).1
          (some ⟨"A", "B"⟩)).1.db "elo") "A" = some (eloUpdate L.pow 1616 1600).1
      ∧ (1616 : ℝ) < (eloUpdate L.pow 1616 1600).1
      ∧ (runTwo L [false, true, false, false, true, true]
          (emptyRedis, MatchStage.decoded ⟨"A", "B"⟩,
            MatchStage.decoded ⟨"A", "C"⟩)).1.db "elo"
          ≠ (MatchHandler L (MatchHandler L emptyRedis (some ⟨"A", "B"⟩)).1
              (some ⟨"A", "C"⟩)).1.db "elo"
      ∧ (runTwo L [false, true, false, false, true, true]
          (emptyRedis, MatchStage.decoded ⟨"A", "B"⟩,
            MatchStage.decoded ⟨"A", "C"⟩)).1.db "elo"
          ≠ (MatchHandler L (MatchHandler L emptyRedis (some ⟨"A", "C"⟩)).1
              (some ⟨"A", "B"⟩)).1.db "elo" := by
  have hpos : ∀ x, (0 : ℝ) < L.pow 10 x := by
    intro x; rw [hpow]; exact Real.rpow_pos_of_pos (by norm_num) _
  have hok : ∀ cmd, emptyRedis.fails cmd = false := fun _ => rfl
  have hnone : ∀ x, (ratings L (emptyRedis.db "elo") x).getD 1600 = 1600 := fun _ => rfl
  have h16 : (eloUpdate L.pow 1600 1600).1 = 1616 := by
    rw [eloUpdate_self L.pow 1600 (hpos _)]; norm_num
  have hrt0 : L.parseFloat (L.formatFloat (eloUpdate L.pow 1600 1600).1)
      = some (eloUpdate L.pow 1600 1600).1 := by
    rw [h16]; exact hrt1
  -- the interleaved run
  have hfinal : ratings L ((runTwo L [false, true, false, false, true, true]
      (emptyRedis, MatchStage.decoded ⟨"A", "B"⟩,
        MatchStage.decoded ⟨"A", "C"⟩)).1.db "elo") "A" = some 1616 := by
    unfold ratings
    rw [runTwo_interleaved L emptyRedis "A" "B" "C" rfl hok (by decide), hnone, hnone, h16]
    exact hrt1
  -- one match alone
  have hone : ∀ l : String, "A" ≠ l →
      ratings L ((MatchHandler L emptyRedis (some ⟨"A", l⟩)).1.db "elo") "A" = some 1616
        ∧ ∀ x, x ≠ "A" → x ≠ l →
            ratings L ((MatchHandler L emptyRedis (some ⟨"A", l⟩)).1.db "elo") x = none := by
    intro l hl
    obtain ⟨h1, h2⟩ := MatchHandler_winner_rating L emptyRedis "A" l 1600 1600 hl rfl hok
      (hnone _) (hnone _) hrt0
    rw [h16] at h1
    exact ⟨h1, fun x hx hxl => by rw [h2 x hx hxl]; rfl⟩
  -- two matches one after the other
  have htwo : ∀ l l' : String, "A" ≠ l → "A" ≠ l' → l' ≠ l →
      ratings L ((MatchHandler L (MatchHandler L emptyRedis (some ⟨"A", l⟩)).1
        (some ⟨"A", l'⟩)).1.db "elo") "A" = some (eloUpdate L.pow 1616 1600).1 := by
    intro l l' hl hl' hll
    obtain ⟨h1, h2⟩ := hone l hl
    refine (MatchHandler_winner_rating L _ "A" l' 1616 1600 hl' ?_ ?_ ?_ ?_ hrt2).1
    · rw [MatchHandler_reachable]; rfl
    · intro cmd; rw [MatchHandler_fails]; rfl
    · rw [h1]; rfl
    · rw [h2 l' (fun h => hl' h.symm) hll]; rfl
  have hgt : (1616 : ℝ) < (eloUpdate L.pow 1616 1600).1 := by
    obtain ⟨-, hlt, -, -, -⟩ := expectedScores_of_pos L.pow 1616 1600 (hpos _) (hpos _)
    simp only [eloUpdate, K, Nat.cast_ofNat]
    linarith
  have h12 := htwo "B" "C" (by decide) (by decide) (by decide)
  have h21 := htwo "C" "B" (by decide) (by decide) (by decide)
  refine ⟨runTwo_interleaved_finished L emptyRedis _ _ rfl hok, hfinal, (hone "C" (by decide)).1,
    h12, h21, hgt, ?_, ?_⟩
  · intro heq
    rw [heq, h12] at hfinal
    exact absurd (Option.some.inj hfinal) hgt.ne'
  · intro heq
    rw [heq, h21] at hfinal
    exact absurd (Option.some.inj hfinal) hgt.ne'

/-- An instance of C8 with an encoding that knows the two ratings of "A"; the
conversion to integers plays no part in `MatchHandler`. -/
theorem lost_update_witness :
    (runTwo (tableLib (fun b e : ℝ => b ^ e)
          [("1616", 1616), ("1631", (eloUpdate (fun b e : ℝ => b ^ e) 1616 1600).1)] (fun _ => 0))
        [false, true, false, false, true, true]
        (emptyRedis, MatchStage.decoded ⟨"A", "B"⟩, MatchStage.decoded ⟨"A", "C"⟩)).1.db "elo"
      ≠ (MatchHandler (tableLib (fun b e : ℝ => b ^ e)
          [("1616", 1616), ("1631", (eloUpdate (fun b e : ℝ => b ^ e) 1616 1600).1)] (fun _ => 0))
        (MatchHandler (tableLib (fun b e : ℝ => b ^ e)
          [("1616", 1616), ("1631", (eloUpdate (fun b e : ℝ => b ^ e) 1616 1600).1)] (fun _ => 0))
          emptyRedis (some ⟨"A", "B"⟩)).1 (some ⟨"A", "C"⟩)).1.db "elo" := by
  have hgt : (1616 : ℝ) < (eloUpdate (fun b e : ℝ => b ^ e) 1616 1600).1 := by
    obtain ⟨-, hlt, -, -, -⟩ := expectedScores_of_pos (fun b e : ℝ => b ^ e) 1616 1600
      (rpow_ten_pos _) (rpow_ten_pos _)
    simp only [eloUpdate, K, Nat.cast_ofNat]
    linarith
  exact (lost_update (tableLib (fun b e : ℝ => b ^ e)
      [("1616", 1616), ("1631", (eloUpdate (fun b e : ℝ => b ^ e) 1616 1600).1)] (fun _ => 0))
    (fun _ _ => rfl) (by simp [tableLib])
    (by simp [tableLib, hgt.ne, show ¬ "1616" = "1631" by decide])).2.2.2.2.2.2.1

/-- C9. Rating mass is conserved over the reals: the two expected scores sum to 1, the
winner gains what the loser loses, and the two new ratings sum to `Rw + Rl`; hence after
a successful match between two distinct players, whose written values survive the text
encoding, the two ratings in the table sum to what they summed to before. -/
theorem elo_mass_conserved :
    (∀ Rw Rl : ℝ,
      (expectedScores (fun b e : ℝ => b ^ e) Rw Rl).1
          + (expectedScores (fun b e : ℝ => b ^ e) Rw Rl).2 = 1
        ∧ (eloUpdate (fun b e : ℝ => b ^ e) Rw Rl).1 - Rw
            = Rl - (eloUpdate (fun b e : ℝ => b ^ e) Rw Rl).2
        ∧ (eloUpdate (fun b e : ℝ => b ^ e) Rw Rl).1
            + (eloUpdate (fun b e : ℝ => b ^ e) Rw Rl).2 = Rw + Rl)
      ∧ ∀ (L : FloatLib ℝ) (p : Redis) (w l : String) (Rw Rl : ℝ),
          (∀ b e, L.pow b e = b ^ e) → w ≠ l →
          Rw = (ratings L (p.db "elo") w).getD 1600 →
          Rl = (ratings L (p.db "elo") l).getD 1600 →
          p.reachable = true → (∀ cmd, p.fails cmd = false) →
          (∀ v, v = (eloUpdate L.pow Rw Rl).1 ∨ v = (eloUpdate L.pow Rw Rl).2 →
            L.parseFloat (L.formatFloat v) = some v) →
          ∃ a b, ratings L ((MatchHandler L p (some ⟨w, l⟩)).1.db "elo") w = some a
            ∧ ratings L ((MatchHandler L p (some ⟨w, l⟩)).1.db "elo") l = some b
            ∧ a + b = Rw + Rl := by
  have hpure : ∀ Rw Rl : ℝ,
      (expectedScores (fun b e : ℝ => b ^ e) Rw Rl).1
          + (expectedScores (fun b e : ℝ => b ^ e) Rw Rl).2 = 1
        ∧ (eloUpdate (fun b e : ℝ => b ^ e) Rw Rl).1 - Rw
            = Rl - (eloUpdate (fun b e : ℝ => b ^ e) Rw Rl).2
        ∧ (eloUpdate (fun b e : ℝ => b ^ e) Rw Rl).1
            + (eloUpdate (fun b e : ℝ => b ^ e) Rw Rl).2 = Rw + Rl := by
    intro Rw Rl
    obtain ⟨-, -, -, -, hsum⟩ := expectedScores_of_pos (fun b e : ℝ => b ^ e) Rw Rl
      (rpow_ten_pos _) (rpow_ten_pos _)
    refine ⟨hsum, ?_, ?_⟩
    · simp only [eloUpdate, K, Nat.cast_ofNat]; linarith
    · simp only [eloUpdate, K, Nat.cast_ofNat]; linarith
  refine ⟨hpure, ?_⟩
  intro L p w l Rw Rl hpow hwl hRw hRl hreach hok hrt
  have hpw : L.pow = fun b e : ℝ => b ^ e := by
    funext b e; exact hpow b e
  obtain ⟨hdb, -, -⟩ :=
    MatchHandler_of_ok L p ⟨w, l⟩ hreach (hok _) (eloUpdate L.pow Rw Rl)
      (by rw [hRw, hRl]) (hok _) (hok _)
  simp only at hdb
  refine ⟨(eloUpdate L.pow Rw Rl).1, (eloUpdate L.pow Rw Rl).2, ?_, ?_, ?_⟩
  · unfold ratings
    rw [hdb, Function.update_same, AList.lookup_insert_ne hwl, AList.lookup_insert]
    exact hrt _ (Or.inl rfl)
  · unfold ratings
    rw [hdb, Function.update_same, AList.lookup_insert]
    exact hrt _ (Or.inr rfl)
  · rw [hpw]
    exact (hpure Rw Rl).2.2

/-- An instance of C9: "A" beats "B" on the empty server. -/
theorem elo_mass_conserved_witness :
    ∃ a b : ℝ,
      ratings (tableLib (fun b e : ℝ => b ^ e) [("1616", 1616), ("1584", 1584)] (fun _ => 0))
          ((MatchHandler
              (tableLib (fun b e : ℝ => b ^ e) [("1616", 1616), ("1584", 1584)] (fun _ => 0))
            emptyRedis (some ⟨"A", "B"⟩)).1.db "elo") "A" = some a
        ∧ ratings
            (tableLib (fun b e : ℝ => b ^ e) [("1616", 1616), ("1584", 1584)] (fun _ => 0))
          ((MatchHandler
              (tableLib (fun b e : ℝ => b ^ e) [("1616", 1616), ("1584", 1584)] (fun _ => 0))
            emptyRedis (some ⟨"A", "B"⟩)).1.db "elo") "B" = some b
        ∧ a + b = 1600 + 1600 := by
  refine elo_mass_conserved.2
    (tableLib (fun b e : ℝ => b ^ e) [("1616", 1616), ("1584", 1584)] (fun _ => 0))
    emptyRedis "A" "B" 1600 1600 (fun _ _ => rfl) (by decide) rfl rfl rfl (fun _ => rfl) ?_
  have hupd : eloUpdate
      (tableLib (fun b e : ℝ => b ^ e) [("1616", 1616), ("1584", 1584)] (fun _ => 0)).pow
      1600 1600 = (1600 + 16, 1600 - 16) :=
    eloUpdate_self _ 1600 (rpow_ten_pos _)
  rw [hupd]
  rintro v (rfl | rfl)
  · norm_num [tableLib]
  · norm_num [tableLib, show ¬ "1616" = "1584" by decide]

/-- C10, refuted as stated.  "A" holds the rating 124000 and a match of "A" against
"A" is recorded: the request ends with status 200 and the table maps "A" to NaN, not to
`124000 - 16`. -/
theorem self_match_counterexample :
    ratings sampleLib (overflowRedis.db "elo") "A" = some (F64.fin 124000)
      ∧ sampleLib.pow 10 (F64.fin 124000 / 400) = F64.inf false
      ∧ (MatchHandler sampleLib overflowRedis (some ⟨"A", "A"⟩)).2.status = 200
      ∧ ((MatchHandler sampleLib overflowRedis (some ⟨"A", "A"⟩)).1.db "elo").lookup "A"
          = some "NaN"
      ∧ ratings sampleLib ((MatchHandler sampleLib overflowRedis (some ⟨"A", "A"⟩)).1.db "elo")
          "A" = some F64.nan
      ∧ ratings sampleLib ((MatchHandler sampleLib overflowRedis (some ⟨"A", "A"⟩)).1.db "elo")
          "A" ≠ some (F64.fin (124000 - 16)) := by
  have hA : ratings sampleLib (overflowRedis.db "elo") "A" = some (F64.fin 124000) := by
    decide
  have hnew : (F64.nan, F64.nan)
      = eloUpdate sampleLib.pow ((ratings sampleLib (overflowRedis.db "elo") "A").getD 1600)
          ((ratings sampleLib (overflowRedis.db "elo") "A").getD 1600) := by
    rw [hA]
    exact F64.eloUpdate_124000.2.symm
  obtain ⟨hst, hl, -⟩ :=
    MatchHandler_lookup sampleLib overflowRedis "A" "A" _ rfl (fun _ => rfl) hnew
  have hl' : ((MatchHandler sampleLib overflowRedis (some ⟨"A", "A"⟩)).1.db "elo").lookup "A"
      = some "NaN" := by
    rw [hl]
    decide
  have hrA : ratings sampleLib
      ((MatchHandler sampleLib overflowRedis (some ⟨"A", "A"⟩)).1.db "elo") "A"
        = some F64.nan := by
    rw [ratings, hl']
    decide
  refine ⟨hA, F64.samplePow_310, hst, hl', hrA, ?_⟩
  rw [hrA]
  intro h
  cases Option.some.inj h

/-- C10, amended.  Self-match in `float64`: when the winner and the loser are the same
name `x` with rating `R` (1600 when absent) and `math.Pow(10, R / 400)` is a positive
finite number whose double is finite, the update is computed as for any match, both
HSET commands go to the field `x`, the loser's last, and after a successful request the
table maps `x` to `R - 16` as `float64` computes it, which is exact whenever the exact
difference is a `float64` number; every other player keeps its rating and its stored
entry. -/
theorem self_match (L : FloatLib F64) (p : Redis) (x : String) (R : F64) (y : ℚ)
    (hy : L.pow 10 (R / 400) = F64.fin y) (hyf : isF64 y) (hy0 : 0 < y)
    (hy2 : 2 * y < 2 ^ 1024)
    (hR : (ratings L (p.db "elo") x).getD 1600 = R)
    (hreach : p.reachable = true) (hread : p.fails ["HGETALL", "elo"] = false)
    (hsetw : p.fails ["HSET", "elo", x, L.formatFloat (R + 16)] = false)
    (hsetl : p.fails ["HSET", "elo", x, L.formatFloat (R - 16)] = false)
    (hrt : L.parseFloat (L.formatFloat (R - 16)) = some (R - 16)) :
    eloUpdate L.pow R R = (R + 16, R - 16)
      ∧ (MatchHandler L p (some ⟨x, x⟩)).1.log
          = (allElos L p).1.log ++ [["HSET", "elo", x, L.formatFloat (R + 16)],
              ["HSET", "elo", x, L.formatFloat (R - 16)]]
      ∧ ((MatchHandler L p (some ⟨x, x⟩)).1.db "elo").lookup x
          = some (L.formatFloat (R - 16))
      ∧ ratings L ((MatchHandler L p (some ⟨x, x⟩)).1.db "elo")
          = Function.update (ratings L (p.db "elo")) x (some (R - 16))
      ∧ (∀ r : ℚ, R = F64.fin r → isF64 (r - 16) →
          ratings L ((MatchHandler L p (some ⟨x, x⟩)).1.db "elo") x
            = some (F64.fin (r - 16)))
      ∧ (∀ z v, z ≠ x → (p.db "elo").lookup z = some v →
          (L.parseFloat v).isSome = true →
          ((MatchHandler L p (some ⟨x, x⟩)).1.db "elo").lookup z = some v)
      ∧ (MatchHandler L p (some ⟨x, x⟩)).2.status = 200 := by
  have hupd := F64.eloUpdate_equal L.pow R y hy hyf hy0 hy2
  have hnew : (R + 16, R - 16)
      = eloUpdate L.pow ((ratings L (p.db "elo") x).getD 1600)
          ((ratings L (p.db "elo") x).getD 1600) := by
    rw [hR, hupd]
  obtain ⟨hdb, hlog, hresp⟩ :=
    MatchHandler_of_ok L p ⟨x, x⟩ hreach hread _ hnew hsetw hsetl
  simp only at hdb hlog
  have hx : ((MatchHandler L p (some ⟨x, x⟩)).1.db "elo").lookup x
      = some (L.formatFloat (R - 16)) := by
    rw [hdb, Function.update_same, AList.lookup_insert]
  have hother : ∀ z, z ≠ x →
      ((MatchHandler L p (some ⟨x, x⟩)).1.db "elo").lookup z
        = ((allElos L p).1.db "elo").lookup z := by
    intro z hz
    rw [hdb, Function.update_same, AList.lookup_insert_ne hz, AList.lookup_insert_ne hz]
  have hrx : ratings L ((MatchHandler L p (some ⟨x, x⟩)).1.db "elo") x = some (R - 16) := by
    rw [ratings, hx]
    exact hrt
  refine ⟨hupd, hlog, hx, ?_, ?_, ?_, by rw [hresp]⟩
  · funext z
    by_cases hz : z = x
    · subst hz
      rw [Function.update_same]
      exact hrx
    · rw [Function.update_noteq hz, ← allElos_ratings L p z]
      unfold ratings
      rw [hother z hz]
  · intro r hr h16
    rw [hrx, hr, F64.sub_16 r h16]
  · intro z v hz hv hp
    rw [hother z hz, allElos_lookup_elo L p hread, hv]
    simp [Option.filter, hp]

/-- An instance of the amended C10: "A" beats "A" on the empty server. -/
theorem self_match_witness :
    ((MatchHandler sampleLib emptyRedis (some ⟨"A", "A"⟩)).1.db "elo").lookup "A"
        = some "1584"
      ∧ ratings sampleLib ((MatchHandler sampleLib emptyRedis (some ⟨"A", "A"⟩)).1.db "elo")
        "A" = some (F64.fin 1584) := by
  have h := self_match sampleLib emptyRedis "A" 1600 10000
    (by rw [F64.ofNat_eq 1600 (by norm_num)]; exact F64.samplePow_4)
    F64.isF64_10000 (by norm_num) (lt_trans (by norm_num) two_pow_53_lt)
    (getD_emptyRedis _ _ _) rfl rfl rfl rfl (by rw [F64.sub_1600_16]; decide)
  refine ⟨?_, ?_⟩
  · rw [h.2.2.1, F64.sub_1600_16]
    decide
  · have h2 := congrFun h.2.2.2.1 "A"
    rw [Function.update_same, F64.sub_1600_16] at h2
    exact h2

end Mmr
